import Mathlib

/-!
Verification of the dotty configuration engine (src/config.rs, src/main.rs).

The development shallowly embeds the data model and the three core stages of
the engine: merge (`Config.combine`, `combineTV`), reconciliation
(`Config.diff`, `Config.update`) and compilation (`Change.priority`,
`Change.action`, `construct_command`).

Modelling conventions:
- Rust `HashMap<Box<str>, V>` becomes an association list `List (String × V)`
  with first-match lookup; `HashMap::insert`/`extend` become `setA`/`extendA`.
  Iteration order of a `HashMap` is unspecified in Rust; the list order is a
  faithful determinization, and all stated properties are insensitive to it.
- Rust `HashSet<Box<str>>` becomes `List String` with membership semantics.
- `u8` priorities become `Nat`; no arithmetic is ever performed on them, so
  overflow cannot occur and the embedding is faithful.
- Filesystem access inside `Config::diff` (tilde expansion, canonicalization,
  existence, directory test, modification times) is abstracted into an
  explicit environment `Env`; fallible metadata lookups return `Except`.
- `str::replace` is embedded as `replaceAll` over character lists (kernel
  reducible); the pattern used by the program is always the nonempty "#:?",
  for which the embedding matches Rust's all-occurrence replacement.
-/

namespace Dotty

/-- Strip `pat` from the front of a character list, returning the rest, or
`none` when `pat` is not a prefix. -/
def stripPre : List Char → List Char → Option (List Char)
  | [], l => some l
  | _ :: _, [] => none
  | p :: ps, c :: cs => if c = p then stripPre ps cs else none

/-- Replace every non-overlapping occurrence of a nonempty `pat`, scanning
left to right, as Rust `str::replace` does. The fuel argument (instantiated
with the list length, which bounds the number of steps because a nonempty
match consumes at least one character) makes the recursion structural, so
that the function reduces inside the kernel. -/
def replaceFuel (pat rep : List Char) : Nat → List Char → List Char
  | _, [] => []
  | 0, l => l
  | fuel + 1, c :: rest =>
    match pat, stripPre pat (c :: rest) with
    | _ :: _, some remaining => rep ++ replaceFuel pat rep fuel remaining
    | _, _ => c :: replaceFuel pat rep fuel rest

/-- Embedding of Rust `str::replace` for the nonempty patterns the program
uses (the placeholder token is always "#:?"). -/
def replaceAll (s pat rep : String) : String :=
  String.mk (replaceFuel pat.data rep.data s.data.length s.data)

/-- Split a character list on a separator character (used to model the path
component and extension splitting of Rust `Path::extension`). -/
def splitCh (sep : Char) : List Char → List (List Char)
  | [] => [[]]
  | c :: rest =>
    match splitCh sep rest with
    | [] => [[c]]
    | h :: t => if c = sep then [] :: h :: t else (c :: h) :: t

/-- Embedding of Rust `Path::extension`: the part of the final path component
after its last dot; `none` when there is no dot, or the only dot is the
leading one of a hidden file. -/
def pathExtension (path : String) : Option String :=
  let fileName := ((splitCh '/' path.data).getLast?).getD []
  match splitCh '.' fileName with
  | [] => none
  | [_] => none
  | first :: rest =>
    if first = [] ∧ rest.length = 1 then none
    else (rest.getLast?).map String.mk

/-- Embedding of `source.extension().is_some_and(|ext| ext == "tera")`. -/
def hasTeraExt (p : String) : Bool :=
  pathExtension p == some "tera"

/-- First-match lookup in an association list; the model of `HashMap::get`. -/
def lookupA {α : Type} : List (String × α) → String → Option α
  | [], _ => none
  | p :: rest, k => if p.1 = k then some p.2 else lookupA rest k

/-- Replace the binding of `k` (first occurrence) or append it; the model of
`HashMap::insert`. -/
def setA {α : Type} : List (String × α) → String → α → List (String × α)
  | [], k, v => [(k, v)]
  | p :: rest, k, v => if p.1 = k then (k, v) :: rest else p :: setA rest k v

/-- Fold the bindings of `o` into `m`, inserting `f` of the current binding
and the incoming value. Both `HashMap::extend` and the per-manager package
union of `Config::combine` are instances of this shape. -/
def foldIns {α : Type} (f : Option α → α → α) (m o : List (String × α)) :
    List (String × α) :=
  o.foldl (fun acc p => setA acc p.1 (f (lookupA acc p.1) p.2)) m

/-- Fold every binding of `o` into `m`, overwriting; the model of
`HashMap::extend`. -/
def extendA {α : Type} (m o : List (String × α)) : List (String × α) :=
  foldIns (fun _ v => v) m o

/-- The key list of an association-list map. -/
def keysA {α : Type} (m : List (String × α)) : List String :=
  m.map (fun p => p.1)

/-- Template values: a leaf string, a nested mapping, or a sequence
(src/config.rs `TemplateValue`). -/
inductive TemplateValue where
  | value (s : String)
  | mapping (entries : List (String × TemplateValue))
  | sequence (elems : List TemplateValue)

/-- Embedding of the hand-written `PartialEq for TemplateValue`: leaves by
string equality, mappings by `HashMap` equality (same size, every left entry
matched by key in the right with equal value), sequences by the asymmetric
rule `a.iter().all(|e| b.contains(e))` where `contains` compares with the old
element on the left. -/
def teq : TemplateValue → TemplateValue → Bool
  | .value a, .value b => a == b
  | .mapping a, .mapping b =>
    a.length == b.length &&
      a.attach.all (fun p =>
        b.attach.any (fun q => (q.1.1 == p.1.1) && teq p.1.2 q.1.2))
  | .sequence a, .sequence b =>
    a.attach.all (fun e => b.attach.any (fun y => teq y.1 e.1))
  | _, _ => false
termination_by a b => sizeOf a + sizeOf b
decreasing_by
  · obtain ⟨⟨k1, v1⟩, hp⟩ := p
    obtain ⟨⟨k2, v2⟩, hq⟩ := q
    have h1 := List.sizeOf_lt_of_mem hp
    have h2 := List.sizeOf_lt_of_mem hq
    simp only [Prod.mk.sizeOf_spec] at h1 h2
    simp only [TemplateValue.mapping.sizeOf_spec]
    omega
  · obtain ⟨e1, he⟩ := e
    obtain ⟨y1, hy⟩ := y
    have h1 := List.sizeOf_lt_of_mem he
    have h2 := List.sizeOf_lt_of_mem hy
    simp only [TemplateValue.sequence.sizeOf_spec]
    omega

/-- Equality of two template maps as Rust compares `TemplateContext`
(a transparent `HashMap` whose values use the custom `teq`). -/
def ctxEq (a b : List (String × TemplateValue)) : Bool :=
  a.length == b.length &&
    a.all (fun p => b.any (fun q => (q.1 == p.1) && teq p.2 q.2))

/-- Typed merge errors (src/config.rs `TemplateValue::combine` and the
`context` wrapper applied per key in the mapping case). -/
inductive MergeError where
  | duplicateValue (a b : String)
  | incompatible (x y : TemplateValue)
  | inKey (k : String) (e : MergeError)

mutual

/-- Embedding of `TemplateValue::combine`: two leaves always conflict, two
sequences concatenate, two mappings merge recursively key by key, any kind
mismatch conflicts. -/
def combineTV : TemplateValue → TemplateValue → Except MergeError TemplateValue
  | .value b, .value a => .error (.duplicateValue a b)
  | .sequence me, .sequence o => .ok (.sequence (me ++ o))
  | .mapping me, .mapping o =>
    match combineMap me o with
    | .ok r => .ok (.mapping r)
    | .error e => .error e
  | me, o => .error (.incompatible me o)
termination_by _a b => sizeOf b

/-- The mapping case of `TemplateValue::combine`: fold the incoming entries
into the accumulator, merging on key collision. -/
def combineMap (me : List (String × TemplateValue)) :
    List (String × TemplateValue) →
      Except MergeError (List (String × TemplateValue))
  | [] => .ok me
  | (k, v) :: rest =>
    match lookupA me k with
    | some cur =>
      match combineTV cur v with
      | .ok merged => combineMap (setA me k merged) rest
      | .error e => .error (.inKey k e)
    | none => combineMap (setA me k v) rest
termination_by l => sizeOf l

end

/-- Manager record (src/config.rs `Manager`). -/
structure Manager where
  add : Option String
  remove : Option String
  update : Option String
  sudo' : Bool
  seperator : String
  priority : Nat
deriving DecidableEq

/-- Rust `Manager::default()`: no commands, no sudo, a single-space join
token, priority 50. -/
def Manager.default : Manager :=
  { add := none, remove := none, update := none, sudo' := false,
    seperator := " ", priority := 50 }

/-- File record (src/config.rs `File`). -/
structure File where
  source : String
  priority : Nat
  post_hook : Option String
  sudo' : Bool
deriving DecidableEq

/-- Rust `File::default()`. -/
def File.default : File :=
  { source := "", priority := 50, post_hook := none, sudo' := false }

/-- Hook record (src/config.rs `Hook`). -/
structure Hook where
  command : String
  priority : Nat
deriving DecidableEq

/-- Rust `Hook::default()`. -/
def Hook.default : Hook := { command := "", priority := 50 }

/-- The two hook tables (src/config.rs `Hooks`). -/
structure Hooks where
  once : List (String × Hook)
  update : List (String × Hook)

/-- Module import directives (src/config.rs `Module`); the Rust field
`import` is spelled `imports` because `import` is reserved in Lean. -/
structure Module where
  imports : List String
  disable : Bool
deriving DecidableEq

/-- The normalized configuration tree (src/config.rs `Config`); the empty
`DottyConfig` field carries no data and is omitted. -/
structure Config where
  managers : List (String × Manager)
  packages : List (String × List String)
  module : Module
  hooks : Hooks
  files : List (String × File)
  template : List (String × TemplateValue)

/-- Rust `Config::default()`: everything empty. -/
def Config.default : Config :=
  { managers := [], packages := [], module := { imports := [], disable := false },
    hooks := { once := [], update := [] }, files := [], template := [] }

/-- Per-manager package union (the `packages` loop of `Config::combine`). -/
def combinePackages (mine other : List (String × List String)) :
    List (String × List String) :=
  foldIns (fun cur v => cur.getD [] ++ v) mine other

/-- Embedding of `Config::combine`: overwrite-by-key for managers, hooks and
files, per-manager union for packages, recursive merge for templates,
`module` untouched. -/
def Config.combine (self other : Config) : Except MergeError Config :=
  match combineMap self.template other.template with
  | .error e => .error e
  | .ok t =>
    .ok { managers := extendA self.managers other.managers,
          packages := combinePackages self.packages other.packages,
          module := self.module,
          hooks := { once := extendA self.hooks.once other.hooks.once,
                     update := extendA self.hooks.update other.hooks.update },
          files := extendA self.files other.files,
          template := t }

/-- Abstract changes produced by reconciliation (src/config.rs `Change`).
Paths are kept as strings. -/
inductive Change where
  | addPackage (manager : String) (packages : List String)
  | removePackage (manager : String) (packages : List String)
  | copyFile (file : File) (target : String)
  | rawCommand (command : String) (priority : Nat)
deriving DecidableEq

/-- Concrete actions produced by compilation (src/config.rs `Action`). -/
inductive Action where
  | run (command : String) (sudo' : Bool)
  | copy (source target : String)
  | copySudo (source target : String)
  | storeFile (content target : String)
deriving DecidableEq

/-- Embedding of `Change::priority`. The Rust code looks the manager up with
`.unwrap()`, which panics when the manager is absent; the panic is modelled
as `none`, a successful return as `some`. -/
def Change.priority (c : Change) (config : Config) : Option Nat :=
  match c with
  | .addPackage manager _ => (lookupA config.managers manager).map Manager.priority
  | .removePackage manager _ => (lookupA config.managers manager).map Manager.priority
  | .rawCommand _ p => some p
  | .copyFile file _ => some file.priority

/-- The sort key used by `sort_by_key(|x| x.priority(self))`. Inside `diff`
and `update` every emitted package change names a manager present in the
tree, so the panic branch (`none`, defaulted here) is never taken there. -/
def priorityKey (config : Config) (c : Change) : Nat :=
  (c.priority config).getD 0

/-- Stable insertion of an element into a key-sorted list whose elements
were all later than it in the original list: it moves past strictly smaller
keys only, hence lands before every equal key. -/
def insertByKey (key : Change → Nat) (c : Change) : List Change → List Change
  | [] => [c]
  | d :: rest =>
    if key d < key c then d :: insertByKey key c rest else c :: d :: rest

/-- Stable insertion sort by key. -/
def sortByKey (key : Change → Nat) : List Change → List Change
  | [] => []
  | c :: rest => insertByKey key c (sortByKey key rest)

/-- The final ascending stable sort applied by `diff` and `update` (Rust
`sort_by_key` is a stable sort; the stable ascending reordering of a list by
a key is unique, and stable insertion sort computes it). -/
def sortChanges (config : Config) (cs : List Change) : List Change :=
  sortByKey (priorityKey config) cs

/-- The package-difference changes one manager contributes to `diff`
(the body of the `for mananger in managers` loop). -/
def packageChangesFor (self old : Config) (name : String) : List Change :=
  let newP := (lookupA self.packages name).getD []
  let curP := (lookupA old.packages name).getD []
  let added := newP.filter (fun x => !curP.contains x)
  let removed := curP.filter (fun x => !newP.contains x)
  (if removed.isEmpty then [] else [.removePackage name removed]) ++
    (if added.isEmpty then [] else [.addPackage name added])

/-- All package changes of `diff`: one pass per key of `new.managers`. -/
def packageChanges (self old : Config) : List Change :=
  self.managers.flatMap (fun p => packageChangesFor self old p.1)

/-- The once-hook changes of `diff`: a hook runs when it is new or its
command text changed. -/
def hookChanges (self old : Config) : List Change :=
  self.hooks.once.filterMap (fun p =>
    let run : Bool :=
      match lookupA old.hooks.once p.1 with
      | some oldHook => !(p.2.command == oldHook.command)
      | none => true
    cond run (some (Change.rawCommand p.2.command p.2.priority)) none)

/-- The filesystem collaborators consumed by `Config::diff`: tilde
expansion, canonicalization (`none` models a failing `canonicalize`, for
which the code falls back to the unresolved path), existence and directory
tests, and fallible modification-time lookup. -/
structure Env where
  tilde : String → String
  canonical : String → Option String
  pathExists : String → Bool
  isDir : String → Bool
  mtime : String → Except String Nat

/-- `path.canonicalize().unwrap_or(path)`. -/
def Env.canon (env : Env) (p : String) : String :=
  (env.canonical p).getD p

/-- Tilde-expand then canonicalize, as `diff` resolves both paths. -/
def Env.resolve (env : Env) (p : String) : String :=
  env.canon (env.tilde p)

/-- The file loop of `Config::diff` over the entries of `new.files`:
emit a copy when the target key is new, the resolved target does not exist,
the resolved source is a directory, or the source is a template artifact and
templates changed; otherwise compare modification times (whose lookup may
fail, aborting the whole diff). -/
def fileChanges (env : Env) (redoAll : Bool) (oldFiles : List (String × File)) :
    List (String × File) → Except String (List Change)
  | [] => .ok []
  | (target, file) :: rest =>
    let source := env.resolve file.source
    let target' := env.resolve target
    let isNew := (lookupA oldFiles target).isNone
    let isTemplate := hasTeraExt source
    if isNew || !env.pathExists target' || env.isDir source ||
        (isTemplate && redoAll) then
      (fileChanges env redoAll oldFiles rest).map
        (fun cs => Change.copyFile file target' :: cs)
    else
      match env.mtime source, env.mtime target' with
      | .error e, _ => .error e
      | .ok _, .error e => .error e
      | .ok sc, .ok tc =>
        (fileChanges env redoAll oldFiles rest).map
          (fun cs => if tc < sc then Change.copyFile file target' :: cs else cs)

/-- Embedding of `Config::diff`: package differences per manager of the new
tree, changed/new once-hooks, file copies driven by the filesystem state,
sorted ascending by priority. -/
def Config.diff (env : Env) (self old : Config) : Except String (List Change) :=
  let pc := packageChanges self old
  let hc := hookChanges self old
  let redoAll := !(ctxEq self.template old.template)
  match fileChanges env redoAll old.files self.files with
  | .error e => .error e
  | .ok fc => .ok (sortChanges self (pc ++ hc ++ fc))

/-- The changes one manager contributes to `Config::update`: nothing without
an `update` command; otherwise one joined command when the join token is
nonempty, else one command per package. -/
def updateCommandChanges (self : Config) (name : String) (mgr : Manager) :
    List Change :=
  match mgr.update with
  | none => []
  | some command =>
    let command := if mgr.sudo' then "sudo " ++ command else command
    let packages := (lookupA self.packages name).getD []
    if mgr.seperator ≠ "" then
      [.rawCommand (replaceAll command "#:?" (String.intercalate mgr.seperator packages))
        mgr.priority]
    else
      packages.map (fun pkg => .rawCommand (replaceAll command "#:?" pkg) mgr.priority)

/-- Embedding of `Config::update`: per-manager update commands, then every
update hook unconditionally, sorted ascending by priority. -/
def Config.update (self : Config) : List Change :=
  let mc := self.managers.flatMap (fun p => updateCommandChanges self p.1 p.2)
  let hc := self.hooks.update.map (fun p => Change.rawCommand p.2.command p.2.priority)
  sortChanges self (mc ++ hc)

/-- Embedding of `construct_command`: join all packages with a nonempty join
token into one invocation, otherwise one invocation per package, each tagged
with the manager's elevation flag. -/
def construct_command (packages : List String) (manager : Manager)
    (command : String) : List Action :=
  if manager.seperator ≠ "" then
    [.run (replaceAll command "#:?" (String.intercalate manager.seperator packages))
      manager.sudo']
  else
    packages.map (fun x => .run (replaceAll command "#:?" x) manager.sudo')

/-- Typed compilation errors of `Change::action` (`anyhow` errors in the
source): a missing manager, `sudo` on a templated file, or a failure of the
template-rendering collaborator. -/
inductive ConfigError where
  | managerNotFound (name : String)
  | sudoTemplate
  | renderFailed (msg : String)
deriving DecidableEq

/-- The post-hook tail appended by the `CopyFile` arm of `Change::action`. -/
def postHookActions (file : File) : List Action :=
  match file.post_hook with
  | some command => [.run command false]
  | none => []

/-- Embedding of `Change::action`. The template renderer (tera) is an
external collaborator passed as `render`, which receives the raw source path
and the tree's template context and may fail. -/
def Change.action (render : String → List (String × TemplateValue) → Except String String)
    (c : Change) (config : Config) : Except ConfigError (List Action) :=
  match c with
  | .addPackage manager packages =>
    match lookupA config.managers manager with
    | none => .error (.managerNotFound manager)
    | some mgr =>
      match mgr.add with
      | some command => .ok (construct_command packages mgr command)
      | none => .ok []
  | .removePackage manager packages =>
    match lookupA config.managers manager with
    | none => .error (.managerNotFound manager)
    | some mgr =>
      match mgr.remove with
      | some command => .ok (construct_command packages mgr command)
      | none => .ok []
  | .rawCommand command _ => .ok [.run command false]
  | .copyFile file target =>
    if hasTeraExt file.source then
      if file.sudo' then .error .sudoTemplate
      else
        match render file.source config.template with
        | .error e => .error (.renderFailed e)
        | .ok rendered => .ok ([Action.storeFile rendered target] ++ postHookActions file)
    else if file.sudo' then .ok ([Action.copySudo file.source target] ++ postHookActions file)
    else .ok ([Action.copy file.source target] ++ postHookActions file)

/-- Set equality of two package lists, the model of `HashSet` equality. -/
def pkgsEqv (a b : List String) : Bool :=
  a.all (fun x => b.contains x) && b.all (fun x => a.contains x)

/-- Map equality up to a value equivalence: every left entry is matched by
lookup in the right with equivalent value, and every right key is present on
the left; the model of `HashMap` equality. -/
def mapEqBy {α : Type} (eqv : α → α → Bool) (a b : List (String × α)) : Bool :=
  a.all (fun p =>
    match lookupA b p.1 with
    | some v => eqv p.2 v
    | none => false) &&
    b.all (fun p => (lookupA a p.1).isSome)

/-- Equality of the `module` field (derived `PartialEq`: set equality of
the imports, equality of the flag). -/
def moduleEq (a b : Module) : Bool :=
  pkgsEqv a.imports b.imports && (a.disable == b.disable)

/-- Embedding of the derived `PartialEq for Config` (Rust `new == old`):
per-field `HashMap` equality, with `HashSet` values compared as sets and
template values compared by the custom asymmetric `teq`. -/
def Config.req (a b : Config) : Bool :=
  mapEqBy (fun x y => x == y) a.managers b.managers &&
    mapEqBy pkgsEqv a.packages b.packages &&
    moduleEq a.module b.module &&
    mapEqBy (fun x y => x == y) a.hooks.once b.hooks.once &&
    mapEqBy (fun x y => x == y) a.hooks.update b.hooks.update &&
    mapEqBy (fun x y => x == y) a.files b.files &&
    ctxEq a.template b.template

/-- Key-uniqueness, the invariant every Rust `HashMap` satisfies. -/
def NodupK {α : Type} (m : List (String × α)) : Prop :=
  (keysA m).Nodup

instance {α : Type} (m : List (String × α)) : Decidable (NodupK m) := by
  unfold NodupK; infer_instance

theorem keysA_nil {α : Type} : keysA ([] : List (String × α)) = [] := rfl

theorem keysA_cons {α : Type} (p : String × α) (l : List (String × α)) :
    keysA (p :: l) = p.1 :: keysA l := rfl

theorem lookupA_setA {α : Type} (m : List (String × α)) (k k' : String) (v : α) :
    lookupA (setA m k v) k' = if k = k' then some v else lookupA m k' := by
  induction m with
  | nil => simp only [setA, lookupA]
  | cons p rest ih =>
    by_cases h : p.1 = k
    · rw [setA, if_pos h]
      by_cases h2 : k = k'
      · rw [lookupA, if_pos h2, if_pos h2]
      · rw [lookupA, if_neg h2, if_neg h2, lookupA,
          if_neg (fun hh => h2 (h.symm.trans hh))]
    · rw [setA, if_neg h, lookupA]
      by_cases h2 : p.1 = k'
      · rw [if_pos h2, if_neg (fun hk => h (h2.trans hk.symm)), lookupA, if_pos h2]
      · rw [if_neg h2, ih, lookupA, if_neg h2]

theorem mem_keysA_setA {α : Type} (m : List (String × α)) (k k' : String) (v : α) :
    k' ∈ keysA (setA m k v) ↔ k' ∈ keysA m ∨ k' = k := by
  induction m with
  | nil =>
    rw [setA, keysA_cons, keysA_nil]
    simp
  | cons p rest ih =>
    by_cases h : p.1 = k
    · rw [setA, if_pos h, keysA_cons, keysA_cons]
      rw [h]
      simp only [List.mem_cons]
      tauto
    · rw [setA, if_neg h, keysA_cons, keysA_cons]
      simp only [List.mem_cons]
      rw [ih]
      tauto

theorem keysA_setA_of_mem {α : Type} (m : List (String × α)) (k : String) (v : α)
    (h : k ∈ keysA m) : keysA (setA m k v) = keysA m := by
  induction m with
  | nil => simp [keysA_nil] at h
  | cons p rest ih =>
    by_cases hp : p.1 = k
    · rw [setA, if_pos hp, keysA_cons, keysA_cons, hp]
    · rw [keysA_cons, List.mem_cons] at h
      rcases h with h | h
      · exact absurd h.symm hp
      · rw [setA, if_neg hp, keysA_cons, keysA_cons, ih h]

theorem keysA_setA_of_not_mem {α : Type} (m : List (String × α)) (k : String) (v : α)
    (h : ¬ k ∈ keysA m) : keysA (setA m k v) = keysA m ++ [k] := by
  induction m with
  | nil =>
    rw [setA, keysA_cons, keysA_nil]
    rfl
  | cons p rest ih =>
    rw [keysA_cons, List.mem_cons] at h
    push_neg at h
    rw [setA, if_neg (fun hh => h.1 hh.symm), keysA_cons, keysA_cons, ih h.2,
      List.cons_append]

theorem nodup_setA {α : Type} (m : List (String × α)) (k : String) (v : α)
    (h : NodupK m) : NodupK (setA m k v) := by
  by_cases hm : k ∈ keysA m
  · unfold NodupK
    rw [keysA_setA_of_mem m k v hm]
    exact h
  · unfold NodupK
    rw [keysA_setA_of_not_mem m k v hm, List.nodup_append]
    refine ⟨h, List.nodup_singleton k, ?_⟩
    intro a ha hak
    rw [List.mem_singleton] at hak
    exact hm (hak ▸ ha)

theorem lookupA_isSome_iff {α : Type} (m : List (String × α)) (k : String) :
    (lookupA m k).isSome = true ↔ k ∈ keysA m := by
  induction m with
  | nil => simp [lookupA, keysA_nil]
  | cons p rest ih =>
    rw [lookupA, keysA_cons, List.mem_cons]
    by_cases h : p.1 = k
    · rw [if_pos h]
      simp [h.symm]
    · rw [if_neg h, ih]
      constructor
      · exact Or.inr
      · rintro (rfl | hm)
        · exact absurd rfl h
        · exact hm

theorem lookupA_eq_none_of_not_mem {α : Type} (m : List (String × α)) (k : String)
    (h : ¬ k ∈ keysA m) : lookupA m k = none := by
  cases hl : lookupA m k with
  | none => rfl
  | some v => exact absurd ((lookupA_isSome_iff m k).mp (by simp [hl])) h

theorem lookupA_mem {α : Type} (m : List (String × α)) (k : String) (v : α)
    (h : lookupA m k = some v) : (k, v) ∈ m := by
  induction m with
  | nil => simp [lookupA] at h
  | cons p rest ih =>
    rw [lookupA] at h
    by_cases hp : p.1 = k
    · rw [if_pos hp] at h
      obtain ⟨a, b⟩ := p
      simp only at hp
      rw [Option.some.injEq] at h
      subst hp
      subst h
      exact List.mem_cons_self _ _
    · rw [if_neg hp] at h
      exact List.mem_cons_of_mem _ (ih h)

theorem mem_keysA_of_mem {α : Type} {m : List (String × α)} {p : String × α}
    (h : p ∈ m) : p.1 ∈ keysA m := List.mem_map_of_mem _ h

theorem lookupA_of_mem_nodup {α : Type} {m : List (String × α)} {p : String × α}
    (hn : NodupK m) (h : p ∈ m) : lookupA m p.1 = some p.2 := by
  induction m with
  | nil => simp at h
  | cons q rest ih =>
    unfold NodupK at hn
    rw [keysA_cons, List.nodup_cons] at hn
    rcases List.mem_cons.mp h with rfl | hmem
    · rw [lookupA, if_pos rfl]
    · have hne : q.1 ≠ p.1 := fun he => hn.1 (he ▸ mem_keysA_of_mem hmem)
      rw [lookupA, if_neg hne]
      exact ih hn.2 hmem

theorem foldIns_lookup {α : Type} (f : Option α → α → α)
    (o : List (String × α)) (ho : NodupK o) :
    ∀ (m : List (String × α)) (k : String),
      lookupA (foldIns f m o) k =
        match lookupA o k with
        | some v => some (f (lookupA m k) v)
        | none => lookupA m k := by
  induction o with
  | nil => intro m k; simp [foldIns, lookupA]
  | cons p rest ih =>
    intro m k
    unfold NodupK keysA at ho
    simp only [List.map_cons, List.nodup_cons] at ho
    have step : foldIns f m (p :: rest) =
        foldIns f (setA m p.1 (f (lookupA m p.1) p.2)) rest := rfl
    rw [step, ih ho.2]
    by_cases h : p.1 = k
    · subst h
      have : lookupA rest p.1 = none :=
        lookupA_eq_none_of_not_mem _ _ (by simpa [keysA] using ho.1)
      simp [lookupA, this, lookupA_setA]
    · simp only [lookupA, if_neg h]
      cases lookupA rest k <;> simp [lookupA_setA, h]

theorem foldIns_mem_keys {α : Type} (f : Option α → α → α)
    (o : List (String × α)) :
    ∀ (m : List (String × α)) (k : String),
      k ∈ keysA (foldIns f m o) ↔ k ∈ keysA m ∨ k ∈ keysA o := by
  induction o with
  | nil => intro m k; simp [foldIns, keysA]
  | cons p rest ih =>
    intro m k
    have step : foldIns f m (p :: rest) =
        foldIns f (setA m p.1 (f (lookupA m p.1) p.2)) rest := rfl
    rw [step, ih]
    rw [mem_keysA_setA]
    simp only [keysA, List.map_cons, List.mem_cons]
    tauto

theorem foldIns_nodup {α : Type} (f : Option α → α → α)
    (o : List (String × α)) :
    ∀ (m : List (String × α)), NodupK m → NodupK (foldIns f m o) := by
  induction o with
  | nil => intro m hm; exact hm
  | cons p rest ih =>
    intro m hm
    have step : foldIns f m (p :: rest) =
        foldIns f (setA m p.1 (f (lookupA m p.1) p.2)) rest := rfl
    rw [step]
    exact ih _ (nodup_setA _ _ _ hm)

theorem lookupA_extendA {α : Type} (m o : List (String × α)) (ho : NodupK o)
    (k : String) :
    lookupA (extendA m o) k = (lookupA o k).or (lookupA m k) := by
  unfold extendA
  rw [foldIns_lookup _ o ho]
  cases lookupA o k <;> simp [Option.or]

theorem mem_keys_extendA {α : Type} (m o : List (String × α)) (k : String) :
    k ∈ keysA (extendA m o) ↔ k ∈ keysA m ∨ k ∈ keysA o :=
  foldIns_mem_keys _ o m k

theorem nodup_extendA {α : Type} (m o : List (String × α)) (hm : NodupK m) :
    NodupK (extendA m o) :=
  foldIns_nodup _ o m hm

theorem lookupA_combinePackages (m o : List (String × List String))
    (ho : NodupK o) (k : String) :
    lookupA (combinePackages m o) k =
      match lookupA o k with
      | some ps => some ((lookupA m k).getD [] ++ ps)
      | none => lookupA m k := by
  unfold combinePackages
  rw [foldIns_lookup _ o ho]
  cases lookupA o k <;> rfl

theorem mem_keys_combinePackages (m o : List (String × List String)) (k : String) :
    k ∈ keysA (combinePackages m o) ↔ k ∈ keysA m ∨ k ∈ keysA o :=
  foldIns_mem_keys _ o m k

theorem nodup_combinePackages (m o : List (String × List String)) (hm : NodupK m) :
    NodupK (combinePackages m o) :=
  foldIns_nodup _ o m hm

theorem teq_value_iff (a b : String) : teq (.value a) (.value b) = (a == b) := by
  rw [teq]

theorem teq_seq_iff (xs ys : List TemplateValue) :
    teq (.sequence xs) (.sequence ys) = true ↔
      ∀ e ∈ xs, ∃ y ∈ ys, teq y e = true := by
  rw [teq, List.all_eq_true]
  constructor
  · intro h e he
    obtain ⟨q, _, hq⟩ := List.any_eq_true.mp (h ⟨e, he⟩ (List.mem_attach _ _))
    exact ⟨q.1, q.2, hq⟩
  · intro h p _
    obtain ⟨y, hy, hyt⟩ := h p.1 p.2
    exact List.any_eq_true.mpr ⟨⟨y, hy⟩, List.mem_attach _ _, hyt⟩

theorem teq_mapping_iff (a b : List (String × TemplateValue)) :
    teq (.mapping a) (.mapping b) = true ↔
      (a.length = b.length ∧
        ∀ p ∈ a, ∃ q ∈ b, q.1 = p.1 ∧ teq p.2 q.2 = true) := by
  rw [teq, Bool.and_eq_true, beq_iff_eq, List.all_eq_true]
  constructor
  · intro ⟨h1, h2⟩
    refine ⟨h1, fun p hp => ?_⟩
    obtain ⟨q, _, hq⟩ := List.any_eq_true.mp (h2 ⟨p, hp⟩ (List.mem_attach _ _))
    rw [Bool.and_eq_true, beq_iff_eq] at hq
    exact ⟨q.1, q.2, hq.1, hq.2⟩
  · intro ⟨h1, h2⟩
    refine ⟨h1, fun p _ => ?_⟩
    obtain ⟨q, hq, hq1, hq2⟩ := h2 p.1 p.2
    refine List.any_eq_true.mpr ⟨⟨q, hq⟩, List.mem_attach _ _, ?_⟩
    rw [Bool.and_eq_true, beq_iff_eq]
    exact ⟨hq1, hq2⟩

theorem ctxEq_iff (a b : List (String × TemplateValue)) :
    ctxEq a b = true ↔
      (a.length = b.length ∧
        ∀ p ∈ a, ∃ q ∈ b, q.1 = p.1 ∧ teq p.2 q.2 = true) := by
  unfold ctxEq
  rw [Bool.and_eq_true, beq_iff_eq, List.all_eq_true]
  constructor
  · intro ⟨h1, h2⟩
    refine ⟨h1, fun p hp => ?_⟩
    obtain ⟨q, hq, hqt⟩ := List.any_eq_true.mp (h2 p hp)
    rw [Bool.and_eq_true, beq_iff_eq] at hqt
    exact ⟨q, hq, hqt.1, hqt.2⟩
  · intro ⟨h1, h2⟩
    refine ⟨h1, fun p hp => ?_⟩
    obtain ⟨q, hq, hq1, hq2⟩ := h2 p hp
    refine List.any_eq_true.mpr ⟨q, hq, ?_⟩
    rw [Bool.and_eq_true, beq_iff_eq]
    exact ⟨hq1, hq2⟩

theorem teq_mapping_eq_ctxEq (a b : List (String × TemplateValue)) :
    teq (.mapping a) (.mapping b) = ctxEq a b := by
  by_cases h : ctxEq a b = true
  · rw [h, (teq_mapping_iff a b).mpr ((ctxEq_iff a b).mp h)]
  · have h2 : ¬ teq (.mapping a) (.mapping b) = true :=
      fun ht => h ((ctxEq_iff a b).mpr ((teq_mapping_iff a b).mp ht))
    rw [Bool.not_eq_true] at h2 h
    rw [h2, h]

theorem teq_refl : ∀ (a : TemplateValue), teq a a = true
  | .value s => by
    rw [teq_value_iff]
    exact beq_self_eq_true s
  | .mapping m =>
    (teq_mapping_iff m m).mpr ⟨rfl, fun p hp => ⟨p, hp, rfl, teq_refl p.2⟩⟩
  | .sequence xs =>
    (teq_seq_iff xs xs).mpr (fun e he => ⟨e, he, teq_refl e⟩)
termination_by a => sizeOf a
decreasing_by
  · have hs := List.sizeOf_lt_of_mem hp
    obtain ⟨k, v⟩ := p
    simp only [Prod.mk.sizeOf_spec] at hs
    simp only [TemplateValue.mapping.sizeOf_spec]
    omega
  · have hs := List.sizeOf_lt_of_mem he
    simp only [TemplateValue.sequence.sizeOf_spec]
    omega

theorem ctxEq_refl (a : List (String × TemplateValue)) : ctxEq a a = true :=
  (ctxEq_iff a a).mpr ⟨rfl, fun p hp => ⟨p, hp, rfl, teq_refl p.2⟩⟩

theorem pkgsEqv_iff (a b : List String) :
    pkgsEqv a b = true ↔ ((∀ x ∈ a, x ∈ b) ∧ (∀ x ∈ b, x ∈ a)) := by
  unfold pkgsEqv
  rw [Bool.and_eq_true, List.all_eq_true, List.all_eq_true]
  simp [List.contains]

theorem pkgsEqv_refl (a : List String) : pkgsEqv a a = true :=
  (pkgsEqv_iff a a).mpr ⟨fun _ h => h, fun _ h => h⟩

theorem mapEqBy_iff {α : Type} (eqv : α → α → Bool) (a b : List (String × α)) :
    mapEqBy eqv a b = true ↔
      ((∀ p ∈ a, ∃ v, lookupA b p.1 = some v ∧ eqv p.2 v = true) ∧
        (∀ p ∈ b, (lookupA a p.1).isSome = true)) := by
  unfold mapEqBy
  rw [Bool.and_eq_true, List.all_eq_true, List.all_eq_true]
  constructor
  · intro ⟨h1, h2⟩
    refine ⟨fun p hp => ?_, fun p hp => h2 p hp⟩
    have hh := h1 p hp
    cases hl : lookupA b p.1 with
    | none =>
      rw [hl] at hh
      exact absurd hh (by simp)
    | some v =>
      rw [hl] at hh
      exact ⟨v, rfl, hh⟩
  · intro ⟨h1, h2⟩
    refine ⟨fun p hp => ?_, h2⟩
    obtain ⟨v, hv, he⟩ := h1 p hp
    rw [hv]
    exact he

theorem mapEqBy_lookup {α : Type} {eqv : α → α → Bool} {a b : List (String × α)}
    (h : mapEqBy eqv a b = true) (k : String) :
    (lookupA a k = none → lookupA b k = none) ∧
    (∀ v, lookupA a k = some v → ∃ w, lookupA b k = some w ∧ eqv v w = true) := by
  obtain ⟨h1, h2⟩ := (mapEqBy_iff eqv a b).mp h
  constructor
  · intro hn
    cases hw : lookupA b k with
    | none => rfl
    | some w =>
      have hh := h2 (k, w) (lookupA_mem b k w hw)
      rw [hn] at hh
      simp at hh
  · intro v hv
    exact h1 (k, v) (lookupA_mem a k v hv)

theorem mapEqBy_refl {α : Type} (eqv : α → α → Bool) (a : List (String × α))
    (hrefl : ∀ v, eqv v v = true) (ha : NodupK a) : mapEqBy eqv a a = true :=
  (mapEqBy_iff eqv a a).mpr
    ⟨fun p hp => ⟨p.2, lookupA_of_mem_nodup ha hp, hrefl p.2⟩,
     fun p hp => by rw [lookupA_of_mem_nodup ha hp]; rfl⟩

/-- The uniqueness invariant of every map inside a parsed `Config`: Rust
`HashMap`s cannot hold duplicate keys. -/
def ConfigWF (c : Config) : Prop :=
  NodupK c.managers ∧ NodupK c.packages ∧ NodupK c.hooks.once ∧
    NodupK c.hooks.update ∧ NodupK c.files

instance (c : Config) : Decidable (ConfigWF c) := by
  unfold ConfigWF
  infer_instance

theorem moduleEq_refl (m : Module) : moduleEq m m = true := by
  unfold moduleEq
  rw [Bool.and_eq_true]
  exact ⟨pkgsEqv_refl _, by simp⟩

theorem req_refl (c : Config) (h : ConfigWF c) : Config.req c c = true := by
  obtain ⟨h1, h2, h3, h4, h5⟩ := h
  unfold Config.req
  simp only [Bool.and_eq_true]
  refine ⟨⟨⟨⟨⟨⟨?_, ?_⟩, ?_⟩, ?_⟩, ?_⟩, ?_⟩, ?_⟩
  · exact mapEqBy_refl _ _ (fun v => by simp) h1
  · exact mapEqBy_refl _ _ pkgsEqv_refl h2
  · exact moduleEq_refl _
  · exact mapEqBy_refl _ _ (fun v => by simp) h3
  · exact mapEqBy_refl _ _ (fun v => by simp) h4
  · exact mapEqBy_refl _ _ (fun v => by simp) h5
  · exact ctxEq_refl _

theorem mem_insertByKey (key : Change → Nat) (c x : Change) :
    ∀ l : List Change, x ∈ insertByKey key c l ↔ x = c ∨ x ∈ l := by
  intro l
  induction l with
  | nil => simp [insertByKey]
  | cons d rest ih =>
    rw [insertByKey]
    by_cases h : key d < key c
    · rw [if_pos h]
      simp only [List.mem_cons, ih]
      tauto
    · rw [if_neg h]
      simp only [List.mem_cons]

theorem mem_sortChanges (config : Config) (cs : List Change) (c : Change) :
    c ∈ sortChanges config cs ↔ c ∈ cs := by
  unfold sortChanges
  induction cs with
  | nil => simp [sortByKey]
  | cons d rest ih =>
    rw [sortByKey, mem_insertByKey]
    simp only [List.mem_cons, ih]

theorem sortChanges_nil (config : Config) : sortChanges config [] = [] := rfl

theorem contains_iff (l : List String) (x : String) :
    l.contains x = true ↔ x ∈ l := by
  simp [List.contains]

theorem packageChangesFor_nil (self old : Config) (name : String)
    (h : mapEqBy pkgsEqv self.packages old.packages = true) :
    packageChangesFor self old name = [] := by
  obtain ⟨hnone, hsome⟩ := mapEqBy_lookup h name
  unfold packageChangesFor
  cases hs : lookupA self.packages name with
  | none =>
    rw [hnone hs]
    simp
  | some v =>
    obtain ⟨w, hw, hvw⟩ := hsome v hs
    rw [hw]
    obtain ⟨hvw1, hvw2⟩ := (pkgsEqv_iff v w).mp hvw
    have hadded : v.filter (fun x => !(((some w).getD []).contains x)) = [] := by
      rw [List.filter_eq_nil_iff]
      intro a ha
      simp [List.contains, hvw1 a ha]
    have hremoved : w.filter (fun x => !(((some v).getD []).contains x)) = [] := by
      rw [List.filter_eq_nil_iff]
      intro a ha
      simp [List.contains, hvw2 a ha]
    simp only [Option.getD_some] at hadded hremoved ⊢
    rw [hadded, hremoved]
    simp

theorem hookChanges_nil (self old : Config)
    (h : mapEqBy (fun x y => x == y) self.hooks.once old.hooks.once = true) :
    hookChanges self old = [] := by
  unfold hookChanges
  rw [List.filterMap_eq_nil_iff]
  intro p hp
  obtain ⟨v, hv, he⟩ := ((mapEqBy_iff _ _ _).mp h).1 p hp
  have hpv : p.2 = v := by simpa using he
  rw [hv, hpv]
  simp

/-- The filesystem is in the steady state reached right after a successful
apply: every resolved target exists, no resolved source is a directory, and
no resolved source is strictly newer than its target. -/
def steadyFiles (env : Env) (files : List (String × File)) : Bool :=
  files.all (fun p =>
    env.pathExists (env.resolve p.1) && !env.isDir (env.resolve p.2.source) &&
      match env.mtime (env.resolve p.2.source), env.mtime (env.resolve p.1) with
      | .ok sc, .ok tc => !(decide (tc < sc))
      | _, _ => false)

theorem fileChanges_steady (env : Env) (oldFiles : List (String × File)) :
    ∀ files : List (String × File),
      steadyFiles env files = true →
      (∀ p ∈ files, (lookupA oldFiles p.1).isSome = true) →
      fileChanges env false oldFiles files = .ok [] := by
  intro files
  induction files with
  | nil => intro _ _; rfl
  | cons p rest ih =>
    intro hsteady hold
    unfold steadyFiles at hsteady
    rw [List.all_eq_true] at hsteady
    have hp := hsteady p (List.mem_cons_self _ _)
    simp only [Bool.and_eq_true] at hp
    obtain ⟨⟨hex, hdir⟩, hmt⟩ := hp
    have hrest : steadyFiles env rest = true := by
      unfold steadyFiles
      rw [List.all_eq_true]
      exact fun q hq => hsteady q (List.mem_cons_of_mem _ hq)
    have hnew : (lookupA oldFiles p.1).isNone = false := by
      obtain ⟨w, hw⟩ := Option.isSome_iff_exists.mp (hold p (List.mem_cons_self _ _))
      rw [hw]
      rfl
    obtain ⟨a, b⟩ := p
    simp only at hex hdir hmt hnew
    cases hms : env.mtime (env.resolve b.source) with
    | error e =>
      rw [hms] at hmt
      simp at hmt
    | ok sc =>
      cases hmt' : env.mtime (env.resolve a) with
      | error e =>
        rw [hms, hmt'] at hmt
        simp at hmt
      | ok tc =>
        rw [hms, hmt'] at hmt
        have hlt : ¬ (tc < sc) := by
          simpa using hmt
        rw [Bool.not_eq_true'] at hdir
        simp only [fileChanges]
        rw [hnew, hex, hdir, hms, hmt']
        simp [ih hrest (fun q hq => hold q (List.mem_cons_of_mem _ hq)), hlt,
          Except.map]

theorem diff_of_req (env : Env) (new : Config)
    (hsteady : steadyFiles env new.files = true) :
    ∀ o : Config, Config.req new o = true → Config.diff env new o = .ok [] := by
  intro o hr
  unfold Config.req at hr
  simp only [Bool.and_eq_true] at hr
  obtain ⟨⟨⟨⟨⟨⟨hman, hpkg⟩, hmod⟩, honce⟩, hupd⟩, hfiles⟩, htmpl⟩ := hr
  have hpc : packageChanges new o = [] := by
    unfold packageChanges
    rw [List.flatMap_eq_nil_iff]
    intro p _
    exact packageChangesFor_nil new o p.1 hpkg
  have hhc : hookChanges new o = [] := hookChanges_nil new o honce
  have hfc : fileChanges env (!(ctxEq new.template o.template)) o.files new.files
      = .ok [] := by
    rw [htmpl]
    apply fileChanges_steady env o.files new.files hsteady
    intro p hp
    obtain ⟨v, hv, _⟩ := ((mapEqBy_iff _ _ _).mp hfiles).1 p hp
    rw [hv]
    rfl
  simp only [Config.diff]
  rw [hfc]
  simp [hpc, hhc, sortChanges_nil]

theorem fileChanges_from_empty (env : Env) (redo : Bool) :
    ∀ files : List (String × File),
      fileChanges env redo [] files =
        .ok (files.map (fun p => Change.copyFile p.2 (env.resolve p.1))) := by
  intro files
  induction files with
  | nil => rfl
  | cons p rest ih =>
    obtain ⟨a, b⟩ := p
    unfold fileChanges
    have hnone : (lookupA ([] : List (String × File)) a).isNone = true := rfl
    rw [hnone]
    simp only [Bool.true_or, if_pos (rfl : (true : Bool) = true)]
    rw [ih]
    rfl

/-- A filesystem state in which nothing exists and no metadata is available:
a fresh machine. -/
def envFresh : Env :=
  { tilde := id, canonical := fun _ => none, pathExists := fun _ => false,
    isDir := fun _ => false, mtime := fun _ => .error "no metadata" }

/-- A filesystem state in equilibrium: every path exists, nothing is a
directory, and all modification times agree. -/
def envSteady : Env :=
  { tilde := id, canonical := fun _ => none, pathExists := fun _ => true,
    isDir := fun _ => false, mtime := fun _ => .ok 0 }

/-- A plain dotfile entry. -/
def fileC1 : File :=
  { source := "conf/vimrc", priority := 50, post_hook := none, sudo' := false }

/-- A tree whose only content is one file entry. -/
def cfgC1 : Config := { Config.default with files := [(".vimrc", fileC1)] }

/-- C1, counterexample: two structurally equal trees (here literally the
same tree) for which `diff` does emit a `CopyFile`, because the file's
target does not exist on disk — `diff` consults the filesystem, so equality
of the trees alone does not make the change list `CopyFile`-free. -/
theorem c1_counterexample :
    Config.req cfgC1 cfgC1 = true ∧
      Config.diff envFresh cfgC1 cfgC1 = .ok [Change.copyFile fileC1 ".vimrc"] :=
  ⟨by decide, rfl⟩

/-- C1 (amended): for structurally equal trees (`new == old` in the Rust
sense) and a filesystem in the steady state left by a successful apply
(every resolved target exists, no resolved source is a directory, no source
strictly newer than its target), `diff(new, old)` emits nothing at all — in
particular no `CopyFile`, no `AddPackage`/`RemovePackage` and no once-hook
`RawCommand` — and recomputing `diff(new, new)` after the simulated
snapshot write is empty as well. -/
theorem c1_diff_equal_trees (env : Env) (new old : Config)
    (hwf : ConfigWF new) (hreq : Config.req new old = true)
    (hsteady : steadyFiles env new.files = true) :
    Config.diff env new old = .ok [] ∧ Config.diff env new new = .ok [] :=
  ⟨diff_of_req env new hsteady old hreq,
   diff_of_req env new hsteady new (req_refl new hwf)⟩

/-- A fully populated manager. -/
def mgrW1 : Manager :=
  { add := some "pacman -S #:?", remove := some "pacman -Rns #:?",
    update := some "pacman -Syu", sudo' := true, seperator := " ",
    priority := 50 }

/-- A once-hook. -/
def hookW1 : Hook := { command := "echo hi", priority := 10 }

/-- A populated tree exercising every map of the model. -/
def cfgW1 : Config :=
  { managers := [("pacman", mgrW1)],
    packages := [("pacman", ["git", "neovim"])],
    module := { imports := [], disable := false },
    hooks := { once := [("greet", hookW1)], update := [("up", hookW1)] },
    files := [(".vimrc", fileC1)],
    template := [] }

theorem c1_diff_equal_trees_witness :
    Config.diff envSteady cfgW1 cfgW1 = .ok [] ∧
      Config.diff envSteady cfgW1 cfgW1 = .ok [] :=
  c1_diff_equal_trees envSteady cfgW1 cfgW1 (by decide) (by decide) (by decide)

theorem packageChangesFor_default (new : Config) (name : String) (pkg : String)
    (hp : pkg ∈ (lookupA new.packages name).getD []) :
    ∃ pkgs, Change.addPackage name pkgs ∈ packageChangesFor new Config.default name ∧
      pkg ∈ pkgs := by
  cases hs : lookupA new.packages name with
  | none =>
    rw [hs] at hp
    simp at hp
  | some v =>
    rw [hs] at hp
    simp only [Option.getD_some] at hp
    refine ⟨v, ?_, hp⟩
    have hcur : lookupA Config.default.packages name = none := rfl
    have hadd : v.filter (fun x => !(([] : List String).contains x)) = v :=
      List.filter_eq_self.mpr (fun a _ => rfl)
    have hne : v.isEmpty = false := by
      cases v with
      | nil => simp at hp
      | cons a l => rfl
    unfold packageChangesFor
    rw [hs, hcur]
    simp only [Option.getD_some, Option.getD_none, hadd, hne]
    simp

/-- C8 (amended): diffing against the empty default tree treats everything
as new — every file entry yields a `CopyFile` at its resolved target, every
once-hook yields its `RawCommand`, and every package under a manager name
that is present in `new.managers` appears in some `AddPackage`. (Packages
under a name with no manager entry are skipped by `diff`, which iterates
manager keys only.) -/
theorem c8_every_item_changed (env : Env) (new : Config) :
    ∃ cs, Config.diff env new Config.default = .ok cs ∧
      (∀ p ∈ new.files, Change.copyFile p.2 (env.resolve p.1) ∈ cs) ∧
      (∀ p ∈ new.hooks.once, Change.rawCommand p.2.command p.2.priority ∈ cs) ∧
      (∀ p ∈ new.managers, ∀ pkg ∈ (lookupA new.packages p.1).getD [],
        ∃ pkgs, Change.addPackage p.1 pkgs ∈ cs ∧ pkg ∈ pkgs) := by
  have hfc : fileChanges env (!(ctxEq new.template Config.default.template))
      Config.default.files new.files =
      .ok (new.files.map (fun p => Change.copyFile p.2 (env.resolve p.1))) :=
    fileChanges_from_empty env _ new.files
  refine ⟨sortChanges new
      (packageChanges new Config.default ++ hookChanges new Config.default ++
        new.files.map (fun p => Change.copyFile p.2 (env.resolve p.1))),
    ?_, ?_, ?_, ?_⟩
  · simp only [Config.diff]
    rw [hfc]
  · intro p hp
    rw [mem_sortChanges]
    refine List.mem_append.mpr (Or.inr ?_)
    exact List.mem_map_of_mem _ hp
  · intro p hp
    rw [mem_sortChanges]
    refine List.mem_append.mpr (Or.inl (List.mem_append.mpr (Or.inr ?_)))
    refine List.mem_filterMap.mpr ⟨p, hp, ?_⟩
    rfl
  · intro p hp pkg hpkg
    obtain ⟨pkgs, hmem, hin⟩ := packageChangesFor_default new p.1 pkg hpkg
    refine ⟨pkgs, ?_, hin⟩
    rw [mem_sortChanges]
    refine List.mem_append.mpr (Or.inl (List.mem_append.mpr (Or.inl ?_)))
    exact List.mem_flatMap.mpr ⟨p, hp, hmem⟩

/-- A tree carrying a package set under a manager name that has no manager
entry. -/
def cfgC8 : Config := { Config.default with packages := [("foo", ["pkg"])] }

/-- C8, counterexample: the tree holds package "pkg" under manager name
"foo", yet because "foo" has no entry in `new.managers` the diff against the
default tree is empty — the package produces no `Change` at all. -/
theorem c8_counterexample :
    lookupA cfgC8.packages "foo" = some ["pkg"] ∧
      Config.diff envFresh cfgC8 Config.default = .ok [] :=
  ⟨rfl, rfl⟩

theorem c8_every_item_changed_witness :
    ∃ cs, Config.diff envFresh cfgW1 Config.default = .ok cs ∧
      Change.copyFile fileC1 ".vimrc" ∈ cs ∧
      Change.rawCommand "echo hi" 10 ∈ cs ∧
      ∃ pkgs, Change.addPackage "pacman" pkgs ∈ cs ∧ "git" ∈ pkgs := by
  obtain ⟨cs, hcs, hf, hh, hm⟩ := c8_every_item_changed envFresh cfgW1
  refine ⟨cs, hcs, ?_, ?_, ?_⟩
  · have := hf (".vimrc", fileC1) (by simp [cfgW1])
    simpa using this
  · have := hh ("greet", hookW1) (by simp [cfgW1])
    simpa [hookW1] using this
  · exact hm ("pacman", mgrW1) (by simp [cfgW1]) "git" (by simp [cfgW1, lookupA])

/-- A tree containing the single manager "pacman". -/
def cfgC3 : Config := { Config.default with managers := [("pacman", mgrW1)] }

/-- C3: `Change::priority` returns the named manager's priority when the
manager is present, but on an absent manager the Rust code calls
`.unwrap()` on the lookup and panics (modelled as `none`) instead of
signalling the typed `ConfigError` the specification requires; the
defensive typed check exists only in `Change::action`. -/
theorem c3_priority_panics :
    Change.priority (Change.addPackage "pacman" ["git"]) cfgC3 = some 50 ∧
      Change.priority (Change.removePackage "pacman" ["git"]) cfgC3 = some 50 ∧
      Change.priority (Change.addPackage "pacman" ["git"]) Config.default = none ∧
      Change.priority (Change.removePackage "pacman" ["git"]) Config.default = none ∧
      Change.action (fun _ _ => .error "") (Change.addPackage "pacman" ["git"])
        Config.default = .error (ConfigError.managerNotFound "pacman") :=
  ⟨rfl, rfl, rfl, rfl, rfl⟩

/-- A manager whose document left the join token unspecified, taking the
default `" "`. -/
def mgrC4 : Manager := { Manager.default with update := some "up #:?" }

/-- A tree with that manager and two packages. -/
def cfgC4 : Config :=
  { Config.default with
    managers := [("m", mgrC4)]
    packages := [("m", ["git", "neovim"])] }

/-- C4, counterexample: `Manager::default` sets the join token to a single
space, not to the empty string, so a manager whose document leaves the
token unspecified joins all package names into one command — `update` emits
one `RawCommand` for two packages, and `construct_command` one `Run` —
rather than one invocation per package as the claim states for the
"unspecified" case. -/
theorem c4_counterexample :
    Manager.default.seperator = " " ∧
      mgrC4.seperator = " " ∧
      Config.update cfgC4 = [Change.rawCommand "up git neovim" 50] ∧
      construct_command ["git", "neovim"] Manager.default "add #:?" =
        [Action.run "add git neovim" false] :=
  ⟨rfl, rfl, by decide, by decide⟩

/-- C4 (amended): for a nonempty package set, a manager whose join token is
nonempty (including the default single space taken when the document leaves
it unspecified) yields exactly one command with all names joined by the
token substituted for the placeholder `#:?`; a manager whose join token is
the empty string yields exactly one command per package, the placeholder
replaced by that package's name — both in `construct_command` (compilation
of `AddPackage`/`RemovePackage`) and in the `update` pass. -/
theorem c4_join_token_behaviour (mgr : Manager) (command : String)
    (packages : List String) (_hne : packages ≠ []) :
    (mgr.seperator ≠ "" →
      construct_command packages mgr command =
        [Action.run (replaceAll command "#:?"
          (String.intercalate mgr.seperator packages)) mgr.sudo']) ∧
    (mgr.seperator = "" →
      construct_command packages mgr command =
        packages.map (fun x => Action.run (replaceAll command "#:?" x) mgr.sudo')) ∧
    (∀ self name ucmd, mgr.update = some ucmd →
      lookupA self.packages name = some packages →
      (mgr.seperator ≠ "" → updateCommandChanges self name mgr =
        [Change.rawCommand (replaceAll (if mgr.sudo' then "sudo " ++ ucmd else ucmd)
          "#:?" (String.intercalate mgr.seperator packages)) mgr.priority]) ∧
      (mgr.seperator = "" → updateCommandChanges self name mgr =
        packages.map (fun pkg =>
          Change.rawCommand (replaceAll (if mgr.sudo' then "sudo " ++ ucmd else ucmd)
            "#:?" pkg) mgr.priority))) := by
  refine ⟨?_, ?_, ?_⟩
  · intro h
    unfold construct_command
    rw [if_pos h]
  · intro h
    unfold construct_command
    rw [if_neg (fun hh => hh h)]
  · intro self name ucmd hu hl
    simp only [updateCommandChanges, hu, hl, Option.getD_some]
    constructor
    · intro h
      rw [if_pos h]
    · intro h
      rw [if_neg (fun hh => hh h)]

/-- A manager with an explicitly empty join token and an update command. -/
def mgrC4e : Manager :=
  { Manager.default with
    seperator := ""
    update := some "up #:?" }

/-- A tree carrying that manager and two packages under its name. -/
def cfgC4e : Config :=
  { Config.default with
    managers := [("m", mgrC4e)]
    packages := [("m", ["git", "neovim"])] }

theorem c4_join_token_behaviour_witness :
    (["git", "neovim"] : List String) ≠ [] ∧
      construct_command ["git", "neovim"] mgrC4e "add #:?" =
        [Action.run "add git" false, Action.run "add neovim" false] ∧
      updateCommandChanges cfgC4e "m" mgrC4e =
        [Change.rawCommand "up git" 50, Change.rawCommand "up neovim" 50] ∧
      updateCommandChanges cfgC4 "m" mgrC4 =
        [Change.rawCommand "up git neovim" 50] := by
  have h := c4_join_token_behaviour mgrC4e "add #:?" ["git", "neovim"] (by simp)
  have h' := c4_join_token_behaviour mgrC4 "up" ["git", "neovim"] (by simp)
  refine ⟨by simp, ?_, ?_, ?_⟩
  · rw [h.2.1 rfl]
    decide
  · rw [(h.2.2 cfgC4e "m" "up #:?" rfl (by decide)).2 rfl]
    decide
  · rw [(h'.2.2 cfgC4 "m" "up #:?" rfl (by decide)).1 (by decide)]
    decide

/-- C7: template sequence "equality" holds exactly when every element of
the new (left) sequence is matched somewhere in the old (right) sequence,
which makes the relation order-insensitive and asymmetric: the empty
sequence compares equal to a nonempty one but not conversely, so it is not
a true equality relation. -/
theorem c7_sequence_eq_asymmetric :
    (∀ xs ys, (teq (.sequence xs) (.sequence ys) = true ↔
      ∀ e ∈ xs, ∃ y ∈ ys, teq y e = true)) ∧
    teq (.sequence []) (.sequence [.value "x"]) = true ∧
    teq (.sequence [.value "x"]) (.sequence []) = false := by
  refine ⟨teq_seq_iff, ?_, ?_⟩
  · simp [teq]
  · simp [teq]

theorem c7_sequence_eq_asymmetric_witness :
    teq (.sequence [.value "a"]) (.sequence [.value "b", .value "a"]) = true := by
  refine (c7_sequence_eq_asymmetric.1 _ _).mpr ?_
  intro e he
  rw [List.mem_singleton] at he
  subst he
  exact ⟨.value "a", by simp, by simp [teq]⟩

/-- The copy-or-store shapes a `CopyFile` compilation can put first. -/
def isCopyOrStore : Action → Bool
  | .copy _ _ => true
  | .copySudo _ _ => true
  | .storeFile _ _ => true
  | .run _ _ => false

theorem mem_postHookActions (file : File) (a : Action)
    (h : a ∈ postHookActions file) : ∃ c, a = Action.run c false := by
  unfold postHookActions at h
  cases hph : file.post_hook with
  | none =>
    rw [hph] at h
    simp at h
  | some c =>
    rw [hph] at h
    rw [List.mem_singleton] at h
    exact ⟨c, h⟩

theorem action_copyFile_cases
    (render : String → List (String × TemplateValue) → Except String String)
    (file : File) (target : String) (cfg : Config) (acts : List Action)
    (h : Change.action render (.copyFile file target) cfg = .ok acts) :
    (∃ rendered, hasTeraExt file.source = true ∧ file.sudo' = false ∧
      acts = [Action.storeFile rendered target] ++ postHookActions file) ∨
    (hasTeraExt file.source = false ∧ file.sudo' = true ∧
      acts = [Action.copySudo file.source target] ++ postHookActions file) ∨
    (hasTeraExt file.source = false ∧ file.sudo' = false ∧
      acts = [Action.copy file.source target] ++ postHookActions file) := by
  simp only [Change.action] at h
  by_cases ht : hasTeraExt file.source = true
  · rw [if_pos ht] at h
    by_cases hs : file.sudo' = true
    · rw [if_pos hs] at h
      simp at h
    · rw [if_neg hs] at h
      cases hr : render file.source cfg.template with
      | error e =>
        rw [hr] at h
        simp at h
      | ok rendered =>
        rw [hr] at h
        simp only [Except.ok.injEq] at h
        exact Or.inl ⟨rendered, ht, Bool.not_eq_true _ ▸ hs, h.symm⟩
  · rw [if_neg ht] at h
    rw [Bool.not_eq_true] at ht
    by_cases hs : file.sudo' = true
    · rw [if_pos hs] at h
      simp only [Except.ok.injEq] at h
      exact Or.inr (Or.inl ⟨ht, hs, h.symm⟩)
    · rw [if_neg hs] at h
      simp only [Except.ok.injEq] at h
      exact Or.inr (Or.inr ⟨ht, Bool.not_eq_true _ ▸ hs, h.symm⟩)

/-- C9: compiling a `CopyFile` whose source is a template artifact with
`sudo` set always fails with the typed `ConfigError` and yields no actions;
and whenever compilation of a `CopyFile` with a post-hook succeeds, the
result is exactly one copy/store action followed immediately by one
unelevated `Run` carrying the post-hook command. -/
theorem c9_sudo_template_and_posthook
    (render : String → List (String × TemplateValue) → Except String String)
    (file : File) (target : String) (cfg : Config) :
    (hasTeraExt file.source = true → file.sudo' = true →
      Change.action render (.copyFile file target) cfg = .error .sudoTemplate) ∧
    (∀ cmd acts, file.post_hook = some cmd →
      Change.action render (.copyFile file target) cfg = .ok acts →
      ∃ a, acts = [a, .run cmd false] ∧ isCopyOrStore a = true) := by
  constructor
  · intro ht hs
    simp only [Change.action]
    rw [if_pos ht, if_pos hs]
  · intro cmd acts hph hact
    have hpost : postHookActions file = [.run cmd false] := by
      unfold postHookActions
      rw [hph]
    rcases action_copyFile_cases render file target cfg acts hact with
      ⟨rendered, _, _, hacts⟩ | ⟨_, _, hacts⟩ | ⟨_, _, hacts⟩
    · exact ⟨.storeFile rendered target, by rw [hacts, hpost]; rfl, rfl⟩
    · exact ⟨.copySudo file.source target, by rw [hacts, hpost]; rfl, rfl⟩
    · exact ⟨.copy file.source target, by rw [hacts, hpost]; rfl, rfl⟩

def fileC9a : File :=
  { source := "app.conf.tera", priority := 50, post_hook := none, sudo' := true }

def fileC9b : File :=
  { source := "conf/gitconfig", priority := 50, post_hook := some "git init",
    sudo' := false }

theorem c9_sudo_template_and_posthook_witness :
    hasTeraExt "app.conf.tera" = true ∧
      Change.action (fun _ _ => .ok "out") (.copyFile fileC9a ".app")
          Config.default = .error .sudoTemplate ∧
      (∃ a, [Action.copy "conf/gitconfig" ".gitconfig",
          Action.run "git init" false] = [a, .run "git init" false] ∧
        isCopyOrStore a = true) := by
  refine ⟨by decide, ?_, ?_⟩
  · exact (c9_sudo_template_and_posthook (fun _ _ => .ok "out") fileC9a ".app"
      Config.default).1 (by decide) rfl
  · exact (c9_sudo_template_and_posthook (fun _ _ => .ok "out") fileC9b
      ".gitconfig" Config.default).2 "git init" _ rfl rfl

/-- C10: the `Copy`/`CopySudo` actions compiled from a `CopyFile` carry the
`File`'s source string verbatim (no tilde expansion, no canonicalization),
while the file loop of `diff` observes the source only through
tilde-expansion plus canonicalization: two files whose raw sources differ
but resolve identically drive the very same emission/error decision. -/
theorem c10_compile_verbatim_diff_resolved
    (render : String → List (String × TemplateValue) → Except String String)
    (file : File) (target : String) (cfg : Config) :
    (∀ acts s t, Change.action render (.copyFile file target) cfg = .ok acts →
      (Action.copy s t ∈ acts ∨ Action.copySudo s t ∈ acts) → s = file.source) ∧
    (∀ (env : Env) (redo : Bool) (oldFiles : List (String × File))
        (tgt : String) (file' : File),
      env.resolve file.source = env.resolve file'.source →
      Except.map List.length (fileChanges env redo oldFiles [(tgt, file)]) =
        Except.map List.length (fileChanges env redo oldFiles [(tgt, file')])) := by
  constructor
  · intro acts s t hact hmem
    rcases action_copyFile_cases render file target cfg acts hact with
      ⟨rendered, _, _, hacts⟩ | ⟨_, _, hacts⟩ | ⟨_, _, hacts⟩ <;>
      subst hacts <;>
      rcases hmem with hm | hm <;>
      rcases List.mem_append.mp hm with h1 | h1 <;>
      first
        | (obtain ⟨c, hc⟩ := mem_postHookActions file _ h1
           simp at hc)
        | (rw [List.mem_singleton] at h1
           simp only [Action.copy.injEq, Action.copySudo.injEq] at h1
           exact h1.1)
        | (rw [List.mem_singleton] at h1
           simp at h1)
  · intro env redo oldFiles tgt file' hres
    simp only [fileChanges, hres]
    split
    · rfl
    · cases hms : env.mtime (env.resolve file'.source) with
      | error e => rfl
      | ok sc =>
        cases hmt : env.mtime (env.resolve tgt) with
        | error e => rfl
        | ok tc =>
          by_cases hlt : tc < sc
          · simp [hlt, Except.map]
          · simp [hlt, Except.map]

def fileC10 : File :=
  { source := "~/conf/vimrc", priority := 50, post_hook := none, sudo' := false }

theorem c10_compile_verbatim_diff_resolved_witness :
    Change.action (fun _ _ => .ok "out") (.copyFile fileC10 ".vimrc")
        Config.default = .ok [Action.copy "~/conf/vimrc" ".vimrc"] ∧
      "~/conf/vimrc" = fileC10.source := by
  refine ⟨rfl, ?_⟩
  exact (c10_compile_verbatim_diff_resolved (fun _ _ => .ok "out") fileC10
    ".vimrc" Config.default).1 [Action.copy "~/conf/vimrc" ".vimrc"]
    "~/conf/vimrc" ".vimrc" rfl (Or.inl (List.mem_singleton.mpr rfl))

theorem combineMap_lookup :
    ∀ (y x r : List (String × TemplateValue)), NodupK y →
      combineMap x y = .ok r → ∀ k,
      (lookupA y k = none → lookupA r k = lookupA x k) ∧
      (∀ v, lookupA y k = some v → lookupA x k = none → lookupA r k = some v) ∧
      (∀ v cur, lookupA y k = some v → lookupA x k = some cur →
        ∃ m, combineTV cur v = .ok m ∧ lookupA r k = some m) := by
  intro y
  induction y with
  | nil =>
    intro x r _ h k
    simp only [combineMap, Except.ok.injEq] at h
    subst h
    refine ⟨fun _ => rfl, fun v hv => ?_, fun v cur hv => ?_⟩ <;>
      simp [lookupA] at hv
  | cons p rest ih =>
    intro x r hnd h k
    obtain ⟨k0, v0⟩ := p
    unfold NodupK at hnd
    rw [keysA_cons, List.nodup_cons] at hnd
    obtain ⟨hk0, hndrest⟩ := hnd
    have hrestnone : lookupA rest k0 = none := lookupA_eq_none_of_not_mem _ _ hk0
    simp only [combineMap] at h
    split at h
    · rename_i cur heq
      split at h
      · rename_i merged hc
        have ihres := ih _ _ hndrest h
        by_cases hk : k0 = k
        · subst hk
          have hyk : lookupA ((k0, v0) :: rest) k0 = some v0 := by
            rw [lookupA, if_pos rfl]
          refine ⟨fun hn => ?_, fun v hv hxnone => ?_, fun v cur' hv hxcur => ?_⟩
          · rw [hyk] at hn
            cases hn
          · rw [heq] at hxnone
            cases hxnone
          · rw [hyk, Option.some.injEq] at hv
            subst hv
            rw [heq, Option.some.injEq] at hxcur
            subst hxcur
            refine ⟨merged, hc, ?_⟩
            rw [(ihres k0).1 hrestnone, lookupA_setA, if_pos rfl]
        · have hyk : lookupA ((k0, v0) :: rest) k = lookupA rest k := by
            rw [lookupA, if_neg hk]
          have hset : lookupA (setA x k0 merged) k = lookupA x k := by
            rw [lookupA_setA, if_neg hk]
          refine ⟨fun hn => ?_, fun v hv hxnone => ?_, fun v cur' hv hxcur => ?_⟩
          · rw [hyk] at hn
            rw [(ihres k).1 hn, hset]
          · rw [hyk] at hv
            exact (ihres k).2.1 v hv (by rw [hset]; exact hxnone)
          · rw [hyk] at hv
            exact (ihres k).2.2 v cur' hv (by rw [hset]; exact hxcur)
      · simp at h
    · rename_i heq
      have ihres := ih _ _ hndrest h
      by_cases hk : k0 = k
      · subst hk
        have hyk : lookupA ((k0, v0) :: rest) k0 = some v0 := by
          rw [lookupA, if_pos rfl]
        refine ⟨fun hn => ?_, fun v hv hxnone => ?_, fun v cur' hv hxcur => ?_⟩
        · rw [hyk] at hn
          cases hn
        · rw [hyk, Option.some.injEq] at hv
          subst hv
          rw [(ihres k0).1 hrestnone, lookupA_setA, if_pos rfl]
        · rw [heq] at hxcur
          cases hxcur
      · have hyk : lookupA ((k0, v0) :: rest) k = lookupA rest k := by
          rw [lookupA, if_neg hk]
        have hset : lookupA (setA x k0 v0) k = lookupA x k := by
          rw [lookupA_setA, if_neg hk]
        refine ⟨fun hn => ?_, fun v hv hxnone => ?_, fun v cur' hv hxcur => ?_⟩
        · rw [hyk] at hn
          rw [(ihres k).1 hn, hset]
        · rw [hyk] at hv
          exact (ihres k).2.1 v hv (by rw [hset]; exact hxnone)
        · rw [hyk] at hv
          exact (ihres k).2.2 v cur' hv (by rw [hset]; exact hxcur)

theorem combineMap_mem_keys :
    ∀ (y x r : List (String × TemplateValue)), combineMap x y = .ok r →
      ∀ k, k ∈ keysA r ↔ (k ∈ keysA x ∨ k ∈ keysA y) := by
  intro y
  induction y with
  | nil =>
    intro x r h k
    simp only [combineMap, Except.ok.injEq] at h
    subst h
    simp [keysA_nil]
  | cons p rest ih =>
    intro x r h k
    obtain ⟨k0, v0⟩ := p
    simp only [combineMap] at h
    split at h
    · split at h
      · rw [ih _ _ h k, mem_keysA_setA, keysA_cons]
        simp only [List.mem_cons]
        tauto
      · simp at h
    · rw [ih _ _ h k, mem_keysA_setA, keysA_cons]
      simp only [List.mem_cons]
      tauto

theorem combineMap_nodup :
    ∀ (y x r : List (String × TemplateValue)), NodupK x →
      combineMap x y = .ok r → NodupK r := by
  intro y
  induction y with
  | nil =>
    intro x r hx h
    simp only [combineMap, Except.ok.injEq] at h
    subst h
    exact hx
  | cons p rest ih =>
    intro x r hx h
    obtain ⟨k0, v0⟩ := p
    simp only [combineMap] at h
    split at h
    · split at h
      · exact ih _ _ (nodup_setA _ _ _ hx) h
      · simp at h
    · exact ih _ _ (nodup_setA _ _ _ hx) h

/-- The three kinds a template value can have. -/
def kindIdx : TemplateValue → Nat
  | .value _ => 0
  | .mapping _ => 1
  | .sequence _ => 2

/-- C5: merging two leaves under the same key path always fails (in either
order, whatever the strings), two sequences concatenate, mismatched kinds
fail, and two mappings merge recursively key by key: keys of one side are
kept, keys of both sides hold the recursive merge of the two values. -/
theorem c5_template_merge_rules :
    (∀ s t, combineTV (.value s) (.value t) = .error (.duplicateValue t s)) ∧
    (∀ xs ys, combineTV (.sequence xs) (.sequence ys) =
      .ok (.sequence (xs ++ ys))) ∧
    (∀ a b, kindIdx a ≠ kindIdx b → combineTV a b = .error (.incompatible a b)) ∧
    (∀ x y r, NodupK y → combineTV (.mapping x) (.mapping y) = .ok r →
      ∃ rm, r = .mapping rm ∧ ∀ k,
        (lookupA y k = none → lookupA rm k = lookupA x k) ∧
        (∀ v, lookupA y k = some v → lookupA x k = none → lookupA rm k = some v) ∧
        (∀ v cur, lookupA y k = some v → lookupA x k = some cur →
          ∃ m, combineTV cur v = .ok m ∧ lookupA rm k = some m)) := by
  refine ⟨?_, ?_, ?_, ?_⟩
  · intro s t
    simp [combineTV]
  · intro xs ys
    simp [combineTV]
  · intro a b hk
    cases a <;> cases b <;> first | (exact absurd rfl hk) | simp [combineTV, kindIdx]
  · intro x y r hy h
    simp only [combineTV] at h
    split at h
    · rename_i rm heq
      simp only [Except.ok.injEq] at h
      exact ⟨rm, h.symm, fun k => combineMap_lookup y x rm hy heq k⟩
    · simp at h

theorem c5_template_merge_rules_witness :
    combineTV (.value "a") (.value "b") = .error (.duplicateValue "b" "a") ∧
      combineTV (.sequence [.value "a"]) (.sequence [.value "b"]) =
        .ok (.sequence [.value "a", .value "b"]) ∧
      combineTV (.value "a") (.sequence []) =
        .error (.incompatible (.value "a") (.sequence [])) ∧
      (∃ rm, (TemplateValue.mapping rm : TemplateValue) =
          .mapping [("k", .sequence [.value "a", .value "b"])] ∧
        ∃ m, combineTV (.sequence [.value "a"]) (.sequence [.value "b"]) = .ok m ∧
          lookupA rm "k" = some m) := by
  obtain ⟨h1, h2, h3, h4⟩ := c5_template_merge_rules
  refine ⟨h1 "a" "b", h2 [.value "a"] [.value "b"],
    h3 (.value "a") (.sequence []) (by decide), ?_⟩
  have hcomb : combineTV (.mapping [("k", TemplateValue.sequence [.value "a"])])
      (.mapping [("k", TemplateValue.sequence [.value "b"])]) =
      .ok (.mapping [("k", TemplateValue.sequence [.value "a", .value "b"])]) := by
    simp [combineTV, combineMap, lookupA, setA]
  obtain ⟨rm, hrm, hch⟩ := h4 _ _ _ (by simp [NodupK, keysA]) hcomb
  obtain ⟨m, hm, hlk⟩ := (hch "k").2.2 (.sequence [.value "b"])
    (.sequence [.value "a"]) rfl rfl
  exact ⟨rm, hrm.symm, m, hm, hlk⟩

/-- C6: folding `incoming` into `target` overwrites by key for managers,
once-hooks, update-hooks and files (a key present in both takes
`incoming`'s value), and unions the package sets per manager name, so no
package from either side is lost. -/
theorem c6_combine_overwrite_and_union (t i c : Config)
    (hman : NodupK i.managers) (honce : NodupK i.hooks.once)
    (hupd : NodupK i.hooks.update) (hfiles : NodupK i.files)
    (hpkg : NodupK i.packages)
    (hc : Config.combine t i = .ok c) :
    (∀ k, lookupA c.managers k =
      (lookupA i.managers k).or (lookupA t.managers k)) ∧
    (∀ k, lookupA c.hooks.once k =
      (lookupA i.hooks.once k).or (lookupA t.hooks.once k)) ∧
    (∀ k, lookupA c.hooks.update k =
      (lookupA i.hooks.update k).or (lookupA t.hooks.update k)) ∧
    (∀ k, lookupA c.files k = (lookupA i.files k).or (lookupA t.files k)) ∧
    (∀ k x, x ∈ (lookupA c.packages k).getD [] ↔
      (x ∈ (lookupA t.packages k).getD [] ∨
        x ∈ (lookupA i.packages k).getD [])) := by
  simp only [Config.combine] at hc
  split at hc
  · simp at hc
  · simp only [Except.ok.injEq] at hc
    subst hc
    refine ⟨fun k => lookupA_extendA _ _ hman k,
      fun k => lookupA_extendA _ _ honce k,
      fun k => lookupA_extendA _ _ hupd k,
      fun k => lookupA_extendA _ _ hfiles k, ?_⟩
    intro k x
    show x ∈ (lookupA (combinePackages t.packages i.packages) k).getD [] ↔ _
    rw [lookupA_combinePackages _ _ hpkg k]
    cases hio : lookupA i.packages k with
    | none => simp
    | some ps =>
      cases hto : lookupA t.packages k with
      | none => simp
      | some qs => simp [List.mem_append]

/-- Target-side tree for the C6 witness. -/
def cfg6t : Config :=
  { Config.default with
    managers := [("a", Manager.default)]
    packages := [("m", ["p1"])] }

/-- Incoming-side tree for the C6 witness. -/
def cfg6i : Config :=
  { Config.default with
    managers := [("a", mgrW1)]
    packages := [("m", ["p2"])] }

/-- The merged tree of the C6 witness. -/
def cfg6r : Config :=
  { Config.default with
    managers := [("a", mgrW1)]
    packages := [("m", ["p1", "p2"])] }

theorem c6_combine_overwrite_and_union_witness :
    Config.combine cfg6t cfg6i = .ok cfg6r ∧
      lookupA cfg6r.managers "a" = some mgrW1 ∧
      "p1" ∈ (lookupA cfg6r.packages "m").getD [] ∧
      "p2" ∈ (lookupA cfg6r.packages "m").getD [] := by
  have hcomb : Config.combine cfg6t cfg6i = .ok cfg6r := by
    simp [Config.combine, combineMap, cfg6t, cfg6i, cfg6r, extendA, foldIns,
      combinePackages, setA, lookupA, Config.default]
  obtain ⟨h1, _, _, _, hp⟩ := c6_combine_overwrite_and_union cfg6t cfg6i cfg6r
    (by decide) (by decide) (by decide) (by decide) (by decide) hcomb
  refine ⟨hcomb, ?_, ?_, ?_⟩
  · rw [h1 "a"]
    rfl
  · exact (hp "m" "p1").mpr (Or.inl (by decide))
  · exact (hp "m" "p2").mpr (Or.inr (by decide))

/-- Well-formedness of a template value as parsed from a document: every
mapping inside it, being a Rust `HashMap`, has unique keys. -/
inductive TWF : TemplateValue → Prop where
  | value (s : String) : TWF (.value s)
  | mapping (m : List (String × TemplateValue)) :
      NodupK m → (∀ p ∈ m, TWF p.2) → TWF (.mapping m)
  | sequence (xs : List TemplateValue) :
      (∀ e ∈ xs, TWF e) → TWF (.sequence xs)

/-- Well-formedness of a template map: unique keys and well-formed values. -/
def CtxWF (m : List (String × TemplateValue)) : Prop :=
  NodupK m ∧ ∀ p ∈ m, TWF p.2

theorem keysA_append {α : Type} (a b : List (String × α)) :
    keysA (a ++ b) = keysA a ++ keysA b := List.map_append _ a b

theorem setA_eq_append_of_not_mem {α : Type} (m : List (String × α))
    (k : String) (v : α) (h : ¬ k ∈ keysA m) : setA m k v = m ++ [(k, v)] := by
  induction m with
  | nil => rfl
  | cons p rest ih =>
    rw [keysA_cons, List.mem_cons] at h
    push_neg at h
    rw [setA, if_neg (fun hh => h.1 hh.symm), List.cons_append, ih h.2]

theorem combineMap_acc_append :
    ∀ (w acc : List (String × TemplateValue)), NodupK (acc ++ w) →
      combineMap acc w = .ok (acc ++ w) := by
  intro w
  induction w with
  | nil =>
    intro acc _
    simp [combineMap]
  | cons p rest ih =>
    intro acc hn
    obtain ⟨k, v⟩ := p
    have hk_notin : ¬ k ∈ keysA acc := by
      intro hmem
      unfold NodupK at hn
      rw [keysA_append, List.nodup_append] at hn
      exact hn.2.2 hmem (by rw [keysA_cons]; exact List.mem_cons_self _ _)
    have hflat : acc ++ [(k, v)] ++ rest = acc ++ (k, v) :: rest := by simp
    simp only [combineMap]
    rw [lookupA_eq_none_of_not_mem _ _ hk_notin,
      setA_eq_append_of_not_mem _ _ _ hk_notin, ih (acc ++ [(k, v)]) (by rw [hflat]; exact hn),
      hflat]

theorem combineMap_nil_left (w : List (String × TemplateValue)) (hw : NodupK w) :
    combineMap [] w = .ok w := by
  have := combineMap_acc_append w [] (by simpa using hw)
  simpa using this

theorem teq_of_mem_subset (xs ys : List TemplateValue)
    (h : ∀ e, e ∈ xs → e ∈ ys) : teq (.sequence xs) (.sequence ys) = true :=
  (teq_seq_iff _ _).mpr (fun e he => ⟨e, h e he, teq_refl e⟩)

theorem combineTV_ok_cases (a b r : TemplateValue) (h : combineTV a b = .ok r) :
    (∃ xs ys, a = .sequence xs ∧ b = .sequence ys ∧ r = .sequence (xs ++ ys)) ∨
    (∃ xm ym rm, a = .mapping xm ∧ b = .mapping ym ∧ r = .mapping rm ∧
      combineMap xm ym = .ok rm) := by
  cases a with
  | value s =>
    cases b <;> simp only [combineTV] at h <;> simp at h
  | mapping xm =>
    cases b with
    | value t => simp only [combineTV] at h; simp at h
    | sequence ys => simp only [combineTV] at h; simp at h
    | mapping ym =>
      simp only [combineTV] at h
      split at h
      · rename_i rm heq
        simp only [Except.ok.injEq] at h
        exact Or.inr ⟨xm, ym, rm, rfl, rfl, h.symm, heq⟩
      · simp at h
  | sequence xs =>
    cases b with
    | value t => simp only [combineTV] at h; simp at h
    | mapping ym => simp only [combineTV] at h; simp at h
    | sequence ys =>
      simp only [combineTV] at h
      simp only [Except.ok.injEq] at h
      exact Or.inl ⟨xs, ys, rfl, rfl, h.symm⟩

theorem ctxEq_of_ext (r1 r2 : List (String × TemplateValue))
    (h1 : NodupK r1) (h2 : NodupK r2)
    (hkeys : ∀ k, k ∈ keysA r1 ↔ k ∈ keysA r2)
    (hval : ∀ k v1 v2, lookupA r1 k = some v1 → lookupA r2 k = some v2 →
      teq v1 v2 = true) : ctxEq r1 r2 = true := by
  rw [ctxEq_iff]
  constructor
  · have hperm : (keysA r1).Perm (keysA r2) :=
      (List.perm_ext_iff_of_nodup h1 h2).mpr hkeys
    have hlen := hperm.length_eq
    simpa [keysA] using hlen
  · intro p hp
    have hl1 : lookupA r1 p.1 = some p.2 := lookupA_of_mem_nodup h1 hp
    have hk : p.1 ∈ keysA r2 := (hkeys p.1).mp (mem_keysA_of_mem hp)
    obtain ⟨v2, hv2⟩ :=
      Option.isSome_iff_exists.mp ((lookupA_isSome_iff _ _).mpr hk)
    exact ⟨(p.1, v2), lookupA_mem _ _ _ hv2, rfl, hval p.1 p.2 v2 hl1 hv2⟩

theorem one_le_sizeOf_list {α : Type} [SizeOf α] (l : List α) : 1 ≤ sizeOf l := by
  cases l with
  | nil => simp
  | cons a rest => simp only [List.cons.sizeOf_spec]; omega

theorem sizeOf_lt_of_lookup {m : List (String × TemplateValue)} {k : String}
    {v : TemplateValue} (h : lookupA m k = some v) : sizeOf v + 1 < sizeOf m := by
  have hm := List.sizeOf_lt_of_mem (lookupA_mem m k v h)
  simp only [Prod.mk.sizeOf_spec] at hm
  omega

theorem ctxWF_nil : CtxWF [] := ⟨List.nodup_nil, by simp⟩

theorem ctxWF_of_TWF_mapping {m : List (String × TemplateValue)}
    (h : TWF (.mapping m)) : CtxWF m := by
  cases h with
  | mapping _ hn hv => exact ⟨hn, hv⟩

/-- Right-commutativity of the template merge, proved simultaneously for
values and for maps by strong induction on size: merging `b` then `c` into
`a` is `teq`-equal to merging `c` then `b`, whenever all four merges
succeed. -/
theorem rcomm_aux :
    ∀ n : Nat,
      (∀ a b c ab r1 ac r2 : TemplateValue,
        sizeOf a + sizeOf b + sizeOf c ≤ n → TWF a → TWF b → TWF c →
        combineTV a b = .ok ab → combineTV ab c = .ok r1 →
        combineTV a c = .ok ac → combineTV ac b = .ok r2 →
        teq r1 r2 = true) ∧
      (∀ x y z xy r1 xz r2 : List (String × TemplateValue),
        sizeOf x + sizeOf y + sizeOf z ≤ n → CtxWF x → CtxWF y → CtxWF z →
        combineMap x y = .ok xy → combineMap xy z = .ok r1 →
        combineMap x z = .ok xz → combineMap xz y = .ok r2 →
        ctxEq r1 r2 = true) := by
  intro n
  induction n using Nat.strong_induction_on with
  | _ n ih =>
    constructor
    · intro a b c ab r1 ac r2 hsz ha hb hc hab hr1 hac hr2
      rcases combineTV_ok_cases a b ab hab with
        ⟨xs, ys, rfl, rfl, rfl⟩ | ⟨xm, ym, abm, rfl, rfl, rfl, habm⟩
      · rcases combineTV_ok_cases _ _ _ hr1 with
          ⟨xs1, zs, he1, rfl, rfl⟩ | ⟨m1, m2, m3, he1, _⟩
        · simp only [TemplateValue.sequence.injEq] at he1
          subst he1
          rcases combineTV_ok_cases _ _ _ hac with
            ⟨xs2, zs2, he2, he3, rfl⟩ | ⟨n1, n2, n3, he2, _⟩
          · simp only [TemplateValue.sequence.injEq] at he2 he3
            subst he2
            subst he3
            rcases combineTV_ok_cases _ _ _ hr2 with
              ⟨xs3, ys3, he4, he5, rfl⟩ | ⟨p1, p2, p3, he4, _⟩
            · simp only [TemplateValue.sequence.injEq] at he4 he5
              subst he4
              subst he5
              refine teq_of_mem_subset _ _ (fun e he => ?_)
              simp only [List.mem_append] at he ⊢
              tauto
            · simp at he4
          · simp at he2
        · simp at he1
      · rcases combineTV_ok_cases _ _ _ hr1 with
          ⟨m1, m2, he1, _⟩ | ⟨xm1, zm, r1m, he1, rfl, rfl, h1m⟩
        · simp at he1
        · simp only [TemplateValue.mapping.injEq] at he1
          subst he1
          rcases combineTV_ok_cases _ _ _ hac with
            ⟨n1, n2, he2, _⟩ | ⟨xm2, zm2, acm, he2, he3, rfl, h2m⟩
          · simp at he2
          · simp only [TemplateValue.mapping.injEq] at he2 he3
            subst he2
            subst he3
            rcases combineTV_ok_cases _ _ _ hr2 with
              ⟨p1, p2, he4, _⟩ | ⟨xm3, ym3, r2m, he4, he5, rfl, h3m⟩
            · simp at he4
            · simp only [TemplateValue.mapping.injEq] at he4 he5
              subst he4
              subst he5
              rw [teq_mapping_eq_ctxEq]
              exact (ih (sizeOf xm + sizeOf ym + sizeOf zm)
                (by simp only [TemplateValue.mapping.sizeOf_spec] at hsz; omega)).2
                xm ym zm abm r1m acm r2m le_rfl
                (ctxWF_of_TWF_mapping ha) (ctxWF_of_TWF_mapping hb)
                (ctxWF_of_TWF_mapping hc) habm h1m h2m h3m
    · intro x y z xy r1 xz r2 hsz hx hy hz h1 h2 h3 h4
      have hnr1 : NodupK r1 :=
        combineMap_nodup z xy r1 (combineMap_nodup y x xy hx.1 h1) h2
      have hnr2 : NodupK r2 :=
        combineMap_nodup y xz r2 (combineMap_nodup z x xz hx.1 h3) h4
      have cxy := combineMap_lookup y x xy hy.1 h1
      have c1 := combineMap_lookup z xy r1 hz.1 h2
      have cxz := combineMap_lookup z x xz hz.1 h3
      have c2 := combineMap_lookup y xz r2 hy.1 h4
      apply ctxEq_of_ext r1 r2 hnr1 hnr2
      · intro k
        rw [combineMap_mem_keys z xy r1 h2 k, combineMap_mem_keys y x xy h1 k,
          combineMap_mem_keys y xz r2 h4 k, combineMap_mem_keys z x xz h3 k]
        tauto
      · intro k v1 v2 hv1 hv2
        cases hxk : lookupA x k with
        | none =>
          cases hyk : lookupA y k with
          | none =>
            cases hzk : lookupA z k with
            | none =>
              have hnone : lookupA r1 k = none := by
                rw [(c1 k).1 hzk, (cxy k).1 hyk, hxk]
              rw [hnone] at hv1
              cases hv1
            | some zv =>
              have e1 : lookupA xy k = none := by rw [(cxy k).1 hyk, hxk]
              have hr1k : lookupA r1 k = some zv := (c1 k).2.1 zv hzk e1
              have hxzk : lookupA xz k = some zv := (cxz k).2.1 zv hzk hxk
              have hr2k : lookupA r2 k = some zv := by rw [(c2 k).1 hyk, hxzk]
              rw [hv1] at hr1k
              rw [hv2] at hr2k
              cases hr1k
              cases hr2k
              exact teq_refl _
          | some yv =>
            have hxyk : lookupA xy k = some yv := (cxy k).2.1 yv hyk hxk
            cases hzk : lookupA z k with
            | none =>
              have hr1k : lookupA r1 k = some yv := by rw [(c1 k).1 hzk, hxyk]
              have hxzk : lookupA xz k = none := by rw [(cxz k).1 hzk, hxk]
              have hr2k : lookupA r2 k = some yv := (c2 k).2.1 yv hyk hxzk
              rw [hv1] at hr1k
              rw [hv2] at hr2k
              cases hr1k
              cases hr2k
              exact teq_refl _
            | some zv =>
              obtain ⟨m1, hm1, hr1k⟩ := (c1 k).2.2 zv yv hzk hxyk
              have hxzk : lookupA xz k = some zv := (cxz k).2.1 zv hzk hxk
              obtain ⟨m2, hm2, hr2k⟩ := (c2 k).2.2 yv zv hyk hxzk
              rw [hv1] at hr1k
              rw [hv2] at hr2k
              cases hr1k
              cases hr2k
              have hsy := sizeOf_lt_of_lookup hyk
              have hsz := sizeOf_lt_of_lookup hzk
              have hsx := one_le_sizeOf_list x
              rcases combineTV_ok_cases _ _ _ hm1 with
                ⟨a1, a2, rfl, rfl, rfl⟩ | ⟨my, mz, mm1, rfl, rfl, rfl, hmm1⟩
              · simp only [combineTV, Except.ok.injEq] at hm2
                subst hm2
                refine teq_of_mem_subset _ _ (fun e he => ?_)
                simp only [List.mem_append] at he ⊢
                tauto
              · rcases combineTV_ok_cases _ _ _ hm2 with
                  ⟨b1, b2, hb1, _⟩ | ⟨mz2, my2, mm2, hb1, hb2, rfl, hmm2⟩
                · simp at hb1
                · simp only [TemplateValue.mapping.injEq] at hb1 hb2
                  subst hb1
                  subst hb2
                  have hwfy : TWF (.mapping my) :=
                    hy.2 (k, .mapping my) (lookupA_mem _ _ _ hyk)
                  have hwfz : TWF (.mapping mz) :=
                    hz.2 (k, .mapping mz) (lookupA_mem _ _ _ hzk)
                  have hcy := ctxWF_of_TWF_mapping hwfy
                  have hcz := ctxWF_of_TWF_mapping hwfz
                  have hsmy : sizeOf (TemplateValue.mapping my) = 1 + sizeOf my := by
                    simp [TemplateValue.mapping.sizeOf_spec]
                  have hsmz : sizeOf (TemplateValue.mapping mz) = 1 + sizeOf mz := by
                    simp [TemplateValue.mapping.sizeOf_spec]
                  have hnil : sizeOf ([] : List (String × TemplateValue)) = 1 := rfl
                  rw [teq_mapping_eq_ctxEq]
                  exact (ih (sizeOf ([] : List (String × TemplateValue)) +
                      sizeOf my + sizeOf mz) (by omega)).2
                    [] my mz my mm1 mz mm2 le_rfl ctxWF_nil hcy hcz
                    (combineMap_nil_left my hcy.1) hmm1
                    (combineMap_nil_left mz hcz.1) hmm2
        | some xv =>
          have hwx : TWF xv := hx.2 (k, xv) (lookupA_mem _ _ _ hxk)
          cases hyk : lookupA y k with
          | none =>
            have hxyk : lookupA xy k = some xv := by rw [(cxy k).1 hyk, hxk]
            cases hzk : lookupA z k with
            | none =>
              have hr1k : lookupA r1 k = some xv := by rw [(c1 k).1 hzk, hxyk]
              have hxzk : lookupA xz k = some xv := by rw [(cxz k).1 hzk, hxk]
              have hr2k : lookupA r2 k = some xv := by rw [(c2 k).1 hyk, hxzk]
              rw [hv1] at hr1k
              rw [hv2] at hr2k
              cases hr1k
              cases hr2k
              exact teq_refl _
            | some zv =>
              obtain ⟨m1, hm1, hr1k⟩ := (c1 k).2.2 zv xv hzk hxyk
              obtain ⟨m2, hm2, hxzk⟩ := (cxz k).2.2 zv xv hzk hxk
              cases hm1.symm.trans hm2
              have hr2k : lookupA r2 k = some m1 := by rw [(c2 k).1 hyk, hxzk]
              rw [hv1] at hr1k
              rw [hv2] at hr2k
              cases hr1k
              cases hr2k
              exact teq_refl _
          | some yv =>
            obtain ⟨mab, hmab, hxyk⟩ := (cxy k).2.2 yv xv hyk hxk
            cases hzk : lookupA z k with
            | none =>
              have hr1k : lookupA r1 k = some mab := by rw [(c1 k).1 hzk, hxyk]
              have hxzk : lookupA xz k = some xv := by rw [(cxz k).1 hzk, hxk]
              obtain ⟨m2, hm2, hr2k⟩ := (c2 k).2.2 yv xv hyk hxzk
              cases hmab.symm.trans hm2
              rw [hv1] at hr1k
              rw [hv2] at hr2k
              cases hr1k
              cases hr2k
              exact teq_refl _
            | some zv =>
              obtain ⟨v1', hv1', hr1k⟩ := (c1 k).2.2 zv mab hzk hxyk
              obtain ⟨mac, hmac, hxzk⟩ := (cxz k).2.2 zv xv hzk hxk
              obtain ⟨v2', hv2', hr2k⟩ := (c2 k).2.2 yv mac hyk hxzk
              rw [hv1] at hr1k
              rw [hv2] at hr2k
              cases hr1k
              cases hr2k
              have hwy : TWF yv := hy.2 (k, yv) (lookupA_mem _ _ _ hyk)
              have hwz : TWF zv := hz.2 (k, zv) (lookupA_mem _ _ _ hzk)
              have hsx := sizeOf_lt_of_lookup hxk
              have hsy := sizeOf_lt_of_lookup hyk
              have hsz := sizeOf_lt_of_lookup hzk
              exact (ih (sizeOf xv + sizeOf yv + sizeOf zv) (by omega)).1
                xv yv zv mab v1 mac v2 le_rfl hwx hwy hwz
                hmab hv1' hmac hv2'

theorem map_rcomm (x y z xy r1 xz r2 : List (String × TemplateValue))
    (hx : CtxWF x) (hy : CtxWF y) (hz : CtxWF z)
    (h1 : combineMap x y = .ok xy) (h2 : combineMap xy z = .ok r1)
    (h3 : combineMap x z = .ok xz) (h4 : combineMap xz y = .ok r2) :
    ctxEq r1 r2 = true :=
  (rcomm_aux (sizeOf x + sizeOf y + sizeOf z)).2 x y z xy r1 xz r2 le_rfl
    hx hy hz h1 h2 h3 h4

/-- Associativity of the template merge, proved simultaneously for values
and for maps by strong induction on size: `(a ⊔ b) ⊔ c` is `teq`-equal to
`a ⊔ (b ⊔ c)` whenever all four merges succeed. -/
theorem assoc_aux :
    ∀ n : Nat,
      (∀ a b c ab abc bc abc2 : TemplateValue,
        sizeOf a + sizeOf b + sizeOf c ≤ n → TWF a → TWF b → TWF c →
        combineTV a b = .ok ab → combineTV ab c = .ok abc →
        combineTV b c = .ok bc → combineTV a bc = .ok abc2 →
        teq abc abc2 = true) ∧
      (∀ x y z xy xyz yz xyz2 : List (String × TemplateValue),
        sizeOf x + sizeOf y + sizeOf z ≤ n → CtxWF x → CtxWF y → CtxWF z →
        combineMap x y = .ok xy → combineMap xy z = .ok xyz →
        combineMap y z = .ok yz → combineMap x yz = .ok xyz2 →
        ctxEq xyz xyz2 = true) := by
  intro n
  induction n using Nat.strong_induction_on with
  | _ n ih =>
    constructor
    · intro a b c ab abc bc abc2 hsz ha hb hc hab habc hbc habc2
      rcases combineTV_ok_cases a b ab hab with
        ⟨xs, ys, rfl, rfl, rfl⟩ | ⟨xm, ym, abm, rfl, rfl, rfl, habm⟩
      · rcases combineTV_ok_cases _ _ _ habc with
          ⟨xs1, zs, he1, rfl, rfl⟩ | ⟨m1, m2, m3, he1, _⟩
        · simp only [TemplateValue.sequence.injEq] at he1
          subst he1
          simp only [combineTV, Except.ok.injEq] at hbc
          subst hbc
          simp only [combineTV, Except.ok.injEq] at habc2
          subst habc2
          rw [List.append_assoc]
          exact teq_refl _
        · simp at he1
      · rcases combineTV_ok_cases _ _ _ habc with
          ⟨m1, m2, he1, _⟩ | ⟨xm1, zm, mm1, he1, rfl, rfl, h1m⟩
        · simp at he1
        · simp only [TemplateValue.mapping.injEq] at he1
          subst he1
          rcases combineTV_ok_cases _ _ _ hbc with
            ⟨n1, n2, he2, _⟩ | ⟨ym2, zm2, bcm, he2, he3, rfl, h2m⟩
          · simp at he2
          · simp only [TemplateValue.mapping.injEq] at he2 he3
            subst he2
            subst he3
            rcases combineTV_ok_cases _ _ _ habc2 with
              ⟨p1, p2, he4, _⟩ | ⟨xm3, bcm2, mm2, he4, he5, rfl, h3m⟩
            · simp at he4
            · simp only [TemplateValue.mapping.injEq] at he4 he5
              subst he4
              subst he5
              rw [teq_mapping_eq_ctxEq]
              exact (ih (sizeOf xm + sizeOf ym + sizeOf zm)
                (by simp only [TemplateValue.mapping.sizeOf_spec] at hsz; omega)).2
                xm ym zm abm mm1 bcm mm2 le_rfl
                (ctxWF_of_TWF_mapping ha) (ctxWF_of_TWF_mapping hb)
                (ctxWF_of_TWF_mapping hc) habm h1m h2m h3m
    · intro x y z xy xyz yz xyz2 hsz hx hy hz h1 h2 h3 h4
      have nyz : NodupK yz := combineMap_nodup z y yz hy.1 h3
      have hnr1 : NodupK xyz :=
        combineMap_nodup z xy xyz (combineMap_nodup y x xy hx.1 h1) h2
      have hnr2 : NodupK xyz2 := combineMap_nodup yz x xyz2 hx.1 h4
      have cxy := combineMap_lookup y x xy hy.1 h1
      have c1 := combineMap_lookup z xy xyz hz.1 h2
      have cyz := combineMap_lookup z y yz hz.1 h3
      have c2 := combineMap_lookup yz x xyz2 nyz h4
      apply ctxEq_of_ext xyz xyz2 hnr1 hnr2
      · intro k
        rw [combineMap_mem_keys z xy xyz h2 k, combineMap_mem_keys y x xy h1 k,
          combineMap_mem_keys yz x xyz2 h4 k, combineMap_mem_keys z y yz h3 k]
        tauto
      · intro k v1 v2 hv1 hv2
        cases hxk : lookupA x k with
        | none =>
          cases hyk : lookupA y k with
          | none =>
            cases hzk : lookupA z k with
            | none =>
              have hnone : lookupA xyz k = none := by
                rw [(c1 k).1 hzk, (cxy k).1 hyk, hxk]
              rw [hnone] at hv1
              cases hv1
            | some zv =>
              have e1 : lookupA xy k = none := by rw [(cxy k).1 hyk, hxk]
              have hr1k : lookupA xyz k = some zv := (c1 k).2.1 zv hzk e1
              have hyzk : lookupA yz k = some zv := (cyz k).2.1 zv hzk hyk
              have hr2k : lookupA xyz2 k = some zv := (c2 k).2.1 zv hyzk hxk
              rw [hv1] at hr1k
              rw [hv2] at hr2k
              cases hr1k
              cases hr2k
              exact teq_refl _
          | some yv =>
            have hxyk : lookupA xy k = some yv := (cxy k).2.1 yv hyk hxk
            cases hzk : lookupA z k with
            | none =>
              have hr1k : lookupA xyz k = some yv := by rw [(c1 k).1 hzk, hxyk]
              have hyzk : lookupA yz k = some yv := by rw [(cyz k).1 hzk, hyk]
              have hr2k : lookupA xyz2 k = some yv := (c2 k).2.1 yv hyzk hxk
              rw [hv1] at hr1k
              rw [hv2] at hr2k
              cases hr1k
              cases hr2k
              exact teq_refl _
            | some zv =>
              obtain ⟨m1, hm1, hr1k⟩ := (c1 k).2.2 zv yv hzk hxyk
              obtain ⟨myz, hmyz, hyzk⟩ := (cyz k).2.2 zv yv hzk hyk
              cases hm1.symm.trans hmyz
              have hr2k : lookupA xyz2 k = some m1 := (c2 k).2.1 m1 hyzk hxk
              rw [hv1] at hr1k
              rw [hv2] at hr2k
              cases hr1k
              cases hr2k
              exact teq_refl _
        | some xv =>
          have hwx : TWF xv := hx.2 (k, xv) (lookupA_mem _ _ _ hxk)
          cases hyk : lookupA y k with
          | none =>
            have hxyk : lookupA xy k = some xv := by rw [(cxy k).1 hyk, hxk]
            cases hzk : lookupA z k with
            | none =>
              have hr1k : lookupA xyz k = some xv := by rw [(c1 k).1 hzk, hxyk]
              have hyzk : lookupA yz k = none := by rw [(cyz k).1 hzk, hyk]
              have hr2k : lookupA xyz2 k = some xv := by rw [(c2 k).1 hyzk, hxk]
              rw [hv1] at hr1k
              rw [hv2] at hr2k
              cases hr1k
              cases hr2k
              exact teq_refl _
            | some zv =>
              obtain ⟨m1, hm1, hr1k⟩ := (c1 k).2.2 zv xv hzk hxyk
              have hyzk : lookupA yz k = some zv := (cyz k).2.1 zv hzk hyk
              obtain ⟨m2, hm2, hr2k⟩ := (c2 k).2.2 zv xv hyzk hxk
              cases hm1.symm.trans hm2
              rw [hv1] at hr1k
              rw [hv2] at hr2k
              cases hr1k
              cases hr2k
              exact teq_refl _
          | some yv =>
            obtain ⟨mab, hmab, hxyk⟩ := (cxy k).2.2 yv xv hyk hxk
            cases hzk : lookupA z k with
            | none =>
              have hr1k : lookupA xyz k = some mab := by rw [(c1 k).1 hzk, hxyk]
              have hyzk : lookupA yz k = some yv := by rw [(cyz k).1 hzk, hyk]
              obtain ⟨m2, hm2, hr2k⟩ := (c2 k).2.2 yv xv hyzk hxk
              cases hmab.symm.trans hm2
              rw [hv1] at hr1k
              rw [hv2] at hr2k
              cases hr1k
              cases hr2k
              exact teq_refl _
            | some zv =>
              obtain ⟨m1, hm1, hr1k⟩ := (c1 k).2.2 zv mab hzk hxyk
              obtain ⟨myz, hmyz, hyzk⟩ := (cyz k).2.2 zv yv hzk hyk
              obtain ⟨m2, hm2, hr2k⟩ := (c2 k).2.2 myz xv hyzk hxk
              rw [hv1] at hr1k
              rw [hv2] at hr2k
              cases hr1k
              cases hr2k
              have hwy : TWF yv := hy.2 (k, yv) (lookupA_mem _ _ _ hyk)
              have hwz : TWF zv := hz.2 (k, zv) (lookupA_mem _ _ _ hzk)
              have hsx := sizeOf_lt_of_lookup hxk
              have hsy := sizeOf_lt_of_lookup hyk
              have hsz2 := sizeOf_lt_of_lookup hzk
              exact (ih (sizeOf xv + sizeOf yv + sizeOf zv) (by omega)).1
                xv yv zv mab v1 myz v2 le_rfl hwx hwy hwz hmab hm1 hmyz hm2

theorem map_assoc (x y z xy xyz yz xyz2 : List (String × TemplateValue))
    (hx : CtxWF x) (hy : CtxWF y) (hz : CtxWF z)
    (h1 : combineMap x y = .ok xy) (h2 : combineMap xy z = .ok xyz)
    (h3 : combineMap y z = .ok yz) (h4 : combineMap x yz = .ok xyz2) :
    ctxEq xyz xyz2 = true :=
  (assoc_aux (sizeOf x + sizeOf y + sizeOf z)).2 x y z xy xyz yz xyz2 le_rfl
    hx hy hz h1 h2 h3 h4

theorem extendA_rcomm_lookup {α : Type} (a b c : List (String × α))
    (hb : NodupK b) (hc : NodupK c)
    (hd : ∀ k ∈ keysA b, ¬ k ∈ keysA c) (k : String) :
    lookupA (extendA (extendA a b) c) k =
      lookupA (extendA (extendA a c) b) k := by
  rw [lookupA_extendA _ _ hc, lookupA_extendA _ _ hb,
    lookupA_extendA _ _ hb, lookupA_extendA _ _ hc]
  cases hbk : lookupA b k with
  | some v =>
    have hcn : lookupA c k = none :=
      lookupA_eq_none_of_not_mem _ _
        (hd k ((lookupA_isSome_iff _ _).mp (by rw [hbk]; rfl)))
    rw [hcn]
    rfl
  | none => cases lookupA c k <;> rfl

theorem extendA_assoc_lookup {α : Type} (a b c : List (String × α))
    (hb : NodupK b) (hc : NodupK c) (k : String) :
    lookupA (extendA (extendA a b) c) k =
      lookupA (extendA a (extendA b c)) k := by
  have hbc : NodupK (extendA b c) := nodup_extendA b c hb
  rw [lookupA_extendA _ _ hc, lookupA_extendA _ _ hb,
    lookupA_extendA _ _ hbc, lookupA_extendA _ _ hc]
  cases lookupA c k <;> cases lookupA b k <;> rfl

theorem combinePackages_facts (a b : List (String × List String))
    (hb : NodupK b) (k : String) :
    ((lookupA (combinePackages a b) k).isSome =
      ((lookupA a k).isSome || (lookupA b k).isSome)) ∧
    (∀ x, x ∈ (lookupA (combinePackages a b) k).getD [] ↔
      (x ∈ (lookupA a k).getD [] ∨ x ∈ (lookupA b k).getD [])) := by
  rw [lookupA_combinePackages _ _ hb k]
  cases hbk : lookupA b k with
  | none => cases hak : lookupA a k <;> simp
  | some ps => cases hak : lookupA a k <;> simp [List.mem_append]

theorem mapEqBy_beq_of_lookup_eq {α : Type} [DecidableEq α]
    (a b : List (String × α)) (hnd : NodupK a)
    (h : ∀ k, lookupA a k = lookupA b k) :
    mapEqBy (fun x y => x == y) a b = true :=
  (mapEqBy_iff _ _ _).mpr
    ⟨fun p hp =>
      ⟨p.2, by rw [← h p.1]; exact lookupA_of_mem_nodup hnd hp, by simp⟩,
     fun p hp => by
       rw [h p.1]
       exact (lookupA_isSome_iff _ _).mpr (mem_keysA_of_mem hp)⟩

theorem mapEqBy_pkgs_of (a b : List (String × List String)) (hnd : NodupK a)
    (hsome : ∀ k, (lookupA a k).isSome = (lookupA b k).isSome)
    (hmem : ∀ k x, x ∈ (lookupA a k).getD [] ↔ x ∈ (lookupA b k).getD []) :
    mapEqBy pkgsEqv a b = true := by
  refine (mapEqBy_iff _ _ _).mpr ⟨fun p hp => ?_, fun p hp => ?_⟩
  · have hla : lookupA a p.1 = some p.2 := lookupA_of_mem_nodup hnd hp
    have hbs : (lookupA b p.1).isSome = true := by rw [← hsome p.1, hla]; rfl
    obtain ⟨w, hw⟩ := Option.isSome_iff_exists.mp hbs
    refine ⟨w, hw, (pkgsEqv_iff _ _).mpr ⟨?_, ?_⟩⟩
    · intro t ht
      have hh := (hmem p.1 t).mp (by rw [hla]; exact ht)
      rw [hw] at hh
      exact hh
    · intro t ht
      have hh := (hmem p.1 t).mpr (by rw [hw]; exact ht)
      rw [hla] at hh
      exact hh
  · rw [hsome p.1]
    exact (lookupA_isSome_iff _ _).mpr (mem_keysA_of_mem hp)

theorem combine_ok_inv (s o r : Config) (h : Config.combine s o = .ok r) :
    ∃ tm, combineMap s.template o.template = .ok tm ∧
      r = { managers := extendA s.managers o.managers,
            packages := combinePackages s.packages o.packages,
            module := s.module,
            hooks := { once := extendA s.hooks.once o.hooks.once,
                       update := extendA s.hooks.update o.hooks.update },
            files := extendA s.files o.files,
            template := tm } := by
  simp only [Config.combine] at h
  split at h
  · simp at h
  · rename_i tm heq
    simp only [Except.ok.injEq] at h
    exact ⟨tm, heq, h.symm⟩

/-- C2 (amended): for fragments whose overwrite maps (managers, hooks,
files) have disjoint keys between `b` and `c`, and whose template merges all
succeed (no leaf/kind conflicts), folding `b` then `c` into `a` yields a
tree Rust-equal to folding `c` then `b`, and `(a ⊕ b) ⊕ c` is Rust-equal to
`a ⊕ (b ⊕ c)`. -/
theorem c2_combine_comm_assoc (a b c ab abc ac acb bc abc2 : Config)
    (hwa : ConfigWF a) (hwb : ConfigWF b) (hwc : ConfigWF c)
    (hta : CtxWF a.template) (htb : CtxWF b.template) (htc : CtxWF c.template)
    (hd1 : ∀ k ∈ keysA b.managers, ¬ k ∈ keysA c.managers)
    (hd2 : ∀ k ∈ keysA b.hooks.once, ¬ k ∈ keysA c.hooks.once)
    (hd3 : ∀ k ∈ keysA b.hooks.update, ¬ k ∈ keysA c.hooks.update)
    (hd4 : ∀ k ∈ keysA b.files, ¬ k ∈ keysA c.files)
    (h1 : Config.combine a b = .ok ab) (h2 : Config.combine ab c = .ok abc)
    (h3 : Config.combine a c = .ok ac) (h4 : Config.combine ac b = .ok acb)
    (h5 : Config.combine b c = .ok bc) (h6 : Config.combine a bc = .ok abc2) :
    Config.req abc acb = true ∧ Config.req abc abc2 = true := by
  obtain ⟨t1, ht1, rfl⟩ := combine_ok_inv a b ab h1
  obtain ⟨t2, ht2, rfl⟩ := combine_ok_inv _ c abc h2
  obtain ⟨t3, ht3, rfl⟩ := combine_ok_inv a c ac h3
  obtain ⟨t4, ht4, rfl⟩ := combine_ok_inv _ b acb h4
  obtain ⟨t5, ht5, rfl⟩ := combine_ok_inv b c bc h5
  obtain ⟨t6, ht6, rfl⟩ := combine_ok_inv a _ abc2 h6
  obtain ⟨nma, npa, noa, nua, nfa⟩ := hwa
  obtain ⟨nmb, npb, nob, nub, nfb⟩ := hwb
  obtain ⟨nmc, npc, noc, nuc, nfc⟩ := hwc
  constructor
  · unfold Config.req
    simp only [Bool.and_eq_true]
    refine ⟨⟨⟨⟨⟨⟨?_, ?_⟩, ?_⟩, ?_⟩, ?_⟩, ?_⟩, ?_⟩
    · exact mapEqBy_beq_of_lookup_eq _ _
        (nodup_extendA _ _ (nodup_extendA _ _ nma))
        (extendA_rcomm_lookup a.managers b.managers c.managers nmb nmc hd1)
    · refine mapEqBy_pkgs_of _ _
        (nodup_combinePackages _ _ (nodup_combinePackages _ _ npa)) ?_ ?_
      · intro k
        rw [(combinePackages_facts _ _ npc k).1,
          (combinePackages_facts _ _ npb k).1,
          (combinePackages_facts _ _ npb k).1,
          (combinePackages_facts _ _ npc k).1]
        cases (lookupA a.packages k).isSome <;>
          cases (lookupA b.packages k).isSome <;>
          cases (lookupA c.packages k).isSome <;> rfl
      · intro k x
        rw [(combinePackages_facts _ _ npc k).2 x,
          (combinePackages_facts _ _ npb k).2 x,
          (combinePackages_facts _ _ npb k).2 x,
          (combinePackages_facts _ _ npc k).2 x]
        tauto
    · exact moduleEq_refl _
    · exact mapEqBy_beq_of_lookup_eq _ _
        (nodup_extendA _ _ (nodup_extendA _ _ noa))
        (extendA_rcomm_lookup a.hooks.once b.hooks.once c.hooks.once nob noc hd2)
    · exact mapEqBy_beq_of_lookup_eq _ _
        (nodup_extendA _ _ (nodup_extendA _ _ nua))
        (extendA_rcomm_lookup a.hooks.update b.hooks.update c.hooks.update
          nub nuc hd3)
    · exact mapEqBy_beq_of_lookup_eq _ _
        (nodup_extendA _ _ (nodup_extendA _ _ nfa))
        (extendA_rcomm_lookup a.files b.files c.files nfb nfc hd4)
    · exact map_rcomm a.template b.template c.template t1 t2 t3 t4
        hta htb htc ht1 ht2 ht3 ht4
  · unfold Config.req
    simp only [Bool.and_eq_true]
    refine ⟨⟨⟨⟨⟨⟨?_, ?_⟩, ?_⟩, ?_⟩, ?_⟩, ?_⟩, ?_⟩
    · exact mapEqBy_beq_of_lookup_eq _ _
        (nodup_extendA _ _ (nodup_extendA _ _ nma))
        (extendA_assoc_lookup a.managers b.managers c.managers nmb nmc)
    · refine mapEqBy_pkgs_of _ _
        (nodup_combinePackages _ _ (nodup_combinePackages _ _ npa)) ?_ ?_
      · intro k
        rw [(combinePackages_facts _ _ npc k).1,
          (combinePackages_facts _ _ npb k).1,
          (combinePackages_facts _ _ (nodup_combinePackages _ _ npb) k).1,
          (combinePackages_facts _ _ npc k).1]
        cases (lookupA a.packages k).isSome <;>
          cases (lookupA b.packages k).isSome <;>
          cases (lookupA c.packages k).isSome <;> rfl
      · intro k x
        rw [(combinePackages_facts _ _ npc k).2 x,
          (combinePackages_facts _ _ npb k).2 x,
          (combinePackages_facts _ _ (nodup_combinePackages _ _ npb) k).2 x,
          (combinePackages_facts _ _ npc k).2 x]
        tauto
    · exact moduleEq_refl _
    · exact mapEqBy_beq_of_lookup_eq _ _
        (nodup_extendA _ _ (nodup_extendA _ _ noa))
        (extendA_assoc_lookup a.hooks.once b.hooks.once c.hooks.once nob noc)
    · exact mapEqBy_beq_of_lookup_eq _ _
        (nodup_extendA _ _ (nodup_extendA _ _ nua))
        (extendA_assoc_lookup a.hooks.update b.hooks.update c.hooks.update
          nub nuc)
    · exact mapEqBy_beq_of_lookup_eq _ _
        (nodup_extendA _ _ (nodup_extendA _ _ nfa))
        (extendA_assoc_lookup a.files b.files c.files nfb nfc)
    · exact map_assoc a.template b.template c.template t1 t2 t5 t6
        hta htb htc ht1 ht2 ht5 ht6

/-- Fragment carrying manager key "m" with the default manager. -/
def cfgC2b : Config :=
  { Config.default with managers := [("m", Manager.default)] }

/-- Fragment carrying the same manager key "m" with a different manager. -/
def cfgC2c : Config :=
  { Config.default with managers := [("m", mgrW1)] }

/-- C2, counterexample: two fragments that define the same manager key with
different values raise no template conflict, yet folding them in the two
orders yields trees that are not equal — overwrite-by-key makes the merge
order matter, so `combine` is not commutative as claimed. -/
theorem c2_counterexample :
    Config.combine Config.default cfgC2b = .ok cfgC2b ∧
      Config.combine cfgC2b cfgC2c = .ok cfgC2c ∧
      Config.combine Config.default cfgC2c = .ok cfgC2c ∧
      Config.combine cfgC2c cfgC2b = .ok cfgC2b ∧
      Config.req cfgC2c cfgC2b = false := by
  refine ⟨?_, ?_, ?_, ?_, by decide⟩ <;>
    simp [Config.combine, combineMap, cfgC2b, cfgC2c, Config.default,
      extendA, foldIns, combinePackages, setA, lookupA]

/-- Witness fragment `a`: only a template. -/
def cfgA2 : Config :=
  { Config.default with
    template := [("base", .sequence [.value "x"])] }

/-- Witness fragment `b`: manager "bm" and a package set. -/
def cfgB2 : Config :=
  { Config.default with
    managers := [("bm", Manager.default)]
    packages := [("pm", ["p1"])] }

/-- Witness fragment `c`: manager "cm" and a package set under the same
manager name as `b`, so the union is exercised. -/
def cfgC2w : Config :=
  { Config.default with
    managers := [("cm", mgrW1)]
    packages := [("pm", ["p2"])] }

/-- `a ⊕ b` of the witness fragments. -/
def cfgAB2 : Config :=
  { Config.default with
    managers := [("bm", Manager.default)]
    packages := [("pm", ["p1"])]
    template := [("base", .sequence [.value "x"])] }

/-- `(a ⊕ b) ⊕ c` (which also equals `a ⊕ (b ⊕ c)`). -/
def cfgABC2w : Config :=
  { Config.default with
    managers := [("bm", Manager.default), ("cm", mgrW1)]
    packages := [("pm", ["p1", "p2"])]
    template := [("base", .sequence [.value "x"])] }

/-- `a ⊕ c` of the witness fragments. -/
def cfgAC2 : Config :=
  { Config.default with
    managers := [("cm", mgrW1)]
    packages := [("pm", ["p2"])]
    template := [("base", .sequence [.value "x"])] }

/-- `(a ⊕ c) ⊕ b`. -/
def cfgACB2w : Config :=
  { Config.default with
    managers := [("cm", mgrW1), ("bm", Manager.default)]
    packages := [("pm", ["p2", "p1"])]
    template := [("base", .sequence [.value "x"])] }

/-- `b ⊕ c` of the witness fragments. -/
def cfgBC2 : Config :=
  { Config.default with
    managers := [("bm", Manager.default), ("cm", mgrW1)]
    packages := [("pm", ["p1", "p2"])] }

theorem ctxwfA2 : CtxWF cfgA2.template := by
  refine ⟨by decide, ?_⟩
  intro p hp
  simp only [cfgA2] at hp
  rcases List.mem_singleton.mp hp with rfl
  exact TWF.sequence _ (fun e he => by
    rcases List.mem_singleton.mp he with rfl
    exact TWF.value _)

theorem combAB2 : Config.combine cfgA2 cfgB2 = .ok cfgAB2 := by
  simp [Config.combine, combineMap, cfgA2, cfgB2, cfgAB2,
    Config.default, extendA, foldIns, combinePackages, setA, lookupA]

theorem combABC2 : Config.combine cfgAB2 cfgC2w = .ok cfgABC2w := by
  simp [Config.combine, combineMap, cfgAB2, cfgC2w, cfgABC2w,
    Config.default, extendA, foldIns, combinePackages, setA, lookupA]

theorem combAC2 : Config.combine cfgA2 cfgC2w = .ok cfgAC2 := by
  simp [Config.combine, combineMap, cfgA2, cfgC2w, cfgAC2,
    Config.default, extendA, foldIns, combinePackages, setA, lookupA]

theorem combACB2 : Config.combine cfgAC2 cfgB2 = .ok cfgACB2w := by
  simp [Config.combine, combineMap, cfgAC2, cfgB2, cfgACB2w,
    Config.default, extendA, foldIns, combinePackages, setA, lookupA]

theorem combBC2 : Config.combine cfgB2 cfgC2w = .ok cfgBC2 := by
  simp [Config.combine, combineMap, cfgB2, cfgC2w, cfgBC2,
    Config.default, extendA, foldIns, combinePackages, setA, lookupA]

theorem combABC2bis : Config.combine cfgA2 cfgBC2 = .ok cfgABC2w := by
  simp [Config.combine, combineMap, cfgA2, cfgBC2, cfgABC2w,
    Config.default, extendA, foldIns, combinePackages, setA, lookupA]

theorem c2_combine_comm_assoc_witness :
    Config.req cfgABC2w cfgACB2w = true ∧
      Config.req cfgABC2w cfgABC2w = true :=
  c2_combine_comm_assoc cfgA2 cfgB2 cfgC2w cfgAB2 cfgABC2w cfgAC2 cfgACB2w
    cfgBC2 cfgABC2w
    (by decide) (by decide) (by decide) ctxwfA2 ctxWF_nil ctxWF_nil
    (by decide) (by decide) (by decide) (by decide)
    combAB2 combABC2 combAC2 combACB2 combBC2 combABC2bis

end Dotty
